import Mathlib

/-!
# asyncui: the bar formatter, the demo tasks and the process lifecycle of `main.go`

A shallow embedding of `src/main.go`.

* Go's `float64` is modelled value-exactly: a finite value is `±m·2^e`, every
  arithmetic result is rounded to nearest, ties to even, with 53 significant bits,
  gradual underflow and overflow to infinity.
* Go's `int` is the 64-bit two's-complement integer (as on amd64 and arm64); a
  subtraction wraps.
* A conversion `int(f)` of a float that `int` cannot represent "succeeds but
  the result value is implementation-dependent" (Go specification); that result is
  a field of `Runtime`.
* A panic is a value of `Fault`; functions that can panic return `Except Fault _`.
* Texts are unbounded; of the limits of memory only the documented panic of
  `strings.Repeat` on the length of its result is modelled.
* The libraries `go-progress`, `jotframe` and `gookit/color` are not part of the
  sources: the colour rendering is a parameter, the sized writer follows its
  description, the calls into the frame are effects of the main goroutine.
-/

namespace Asyncui

/-! ## float64 -/

/-- An IEEE-754 binary64 datum.  `fin neg m e` is the value `(-1)^neg · m · 2^e`. -/
inductive Float64 where
  | nan
  | inf (neg : Bool)
  | fin (neg : Bool) (m : Nat) (e : Int)
deriving DecidableEq, Repr

/-- Number of binary digits of `n`, computed with `fuel` halvings. -/
def bitLenAux : Nat → Nat → Nat
  | 0, _ => 0
  | fuel + 1, n => if n = 0 then 0 else bitLenAux fuel (n / 2) + 1

/-- Number of binary digits of `n` (`0` for `0`). -/
def bitLen (n : Nat) : Nat := bitLenAux n n

/-- The quotient `m / 2^s` rounded to the nearest integer, ties to the even one. -/
def roundShift (m s : Nat) : Nat :=
  let q := m / 2 ^ s
  let r := m % 2 ^ s
  if 2 * r < 2 ^ s then q
  else if 2 ^ s < 2 * r then q + 1
  else if q % 2 = 0 then q else q + 1

/-- The data that are float64 values: NaN, the infinities, and `±m·2^e` with at most
53 significant bits, the exponent of the last bit at least `-1074`, and a magnitude
below `2^1024`. -/
def Float64.valid : Float64 → Bool
  | .fin _ m e => decide (m < 2 ^ 53) && decide (-1074 ≤ e) &&
      (decide (m = 0) || decide ((bitLen m : Int) + e ≤ 1024))
  | _ => true

/-- The number of low bits that rounding `m·2^e` discards: what exceeds 53
significant bits, or lies below the subnormal quantum `2^-1074`. -/
def roundQuantum (m : Nat) (e : Int) : Int := max ((bitLen m : Int) - 53) (-1074 - e)

/-- Significand of `m·2^e` after rounding to the quantum. -/
def roundMant (m : Nat) (e : Int) : Nat :=
  if roundQuantum m e ≤ 0 then m else roundShift m (roundQuantum m e).toNat

/-- Exponent of `m·2^e` after rounding to the quantum. -/
def roundExp (m : Nat) (e : Int) : Int :=
  if roundQuantum m e ≤ 0 then e else e + roundQuantum m e

/-- A rounded significand of up to `2^53` with its exponent, as a datum: a carry
into bit 53 is renormalised, a magnitude from `2^1024` on is infinite. -/
def packF64 (neg : Bool) (m : Nat) (e : Int) : Float64 :=
  let m2 := if m = 2 ^ 53 then 2 ^ 52 else m
  let e2 := if m = 2 ^ 53 then e + 1 else e
  if m2 ≠ 0 ∧ (bitLen m2 : Int) + e2 > 1024 then .inf neg else .fin neg m2 e2

/-- The float64 nearest to the exact value `(-1)^neg · m · 2^e` (round to nearest,
ties to even; subnormals below `2^-1022`; infinity from `2^1024` on). -/
def roundNE (neg : Bool) (m : Nat) (e : Int) : Float64 :=
  packF64 neg (roundMant m e) (roundExp m e)

/-- The float64 constant `0`. -/
def f64Zero : Float64 := .fin false 0 0

/-- The float64 constant `1`. -/
def f64One : Float64 := .fin false 1 0

/-- The conversion `float64(n)` of an integer. -/
def f64OfInt (n : Int) : Float64 := roundNE (decide (n < 0)) n.natAbs 0

/-- The float64 product `a * b`. -/
def f64Mul : Float64 → Float64 → Float64
  | .nan, _ => .nan
  | _, .nan => .nan
  | .inf n1, .inf n2 => .inf (xor n1 n2)
  | .inf n1, .fin n2 m _ => if m = 0 then .nan else .inf (xor n1 n2)
  | .fin n1 m _, .inf n2 => if m = 0 then .nan else .inf (xor n1 n2)
  | .fin n1 m1 e1, .fin n2 m2 e2 => roundNE (xor n1 n2) (m1 * m2) (e1 + e2)

/-- The float64 quotient `a / b`: the exact quotient is cut after more than 64
bits, a sticky bit records a non-zero rest, and the result is rounded once. -/
def f64Div : Float64 → Float64 → Float64
  | .nan, _ => .nan
  | _, .nan => .nan
  | .inf _, .inf _ => .nan
  | .inf n1, .fin n2 _ _ => .inf (xor n1 n2)
  | .fin n1 _ _, .inf n2 => .fin (xor n1 n2) 0 0
  | .fin n1 m1 e1, .fin n2 m2 e2 =>
    if m2 = 0 then (if m1 = 0 then .nan else .inf (xor n1 n2))
    else
      let k := 64 + bitLen m2
      let q := m1 * 2 ^ k / m2
      let sticky := if m1 * 2 ^ k % m2 = 0 then 0 else 1
      roundNE (xor n1 n2) (2 * q + sticky) (e1 - e2 - (k : Int) - 1)

/-- The signed significand of a finite datum. -/
def signedMant (neg : Bool) (m : Nat) : Int := if neg then -(m : Int) else (m : Int)

/-- Comparison `n1·2^e1 < n2·2^e2` of two dyadic numbers, on a common exponent. -/
def dyadicLt (n1 : Int) (e1 : Int) (n2 : Int) (e2 : Int) : Bool :=
  decide (n1 * 2 ^ (e1 - min e1 e2).toNat < n2 * 2 ^ (e2 - min e1 e2).toNat)

/-- The float64 comparison `a < b` (false when either side is NaN). -/
def f64Lt : Float64 → Float64 → Bool
  | .nan, _ => false
  | _, .nan => false
  | .inf n1, .inf n2 => n1 && !n2
  | .inf n1, .fin _ _ _ => n1
  | .fin _ _ _, .inf n2 => !n2
  | .fin n1 m1 e1, .fin n2 m2 e2 => dyadicLt (signedMant n1 m1) e1 (signedMant n2 m2) e2

/-- The float64 comparison `a <= b` (false when either side is NaN). -/
def f64Le : Float64 → Float64 → Bool
  | .nan, _ => false
  | _, .nan => false
  | a, b => !(f64Lt b a)

/-! ## int and the conversion `int(f)` -/

/-- Smallest value of Go's 64-bit `int`. -/
def minInt : Int := -(2 ^ 63)

/-- Largest value of Go's 64-bit `int`. -/
def maxInt : Int := 2 ^ 63 - 1

/-- Two's-complement wrap-around of an integer result into 64 bits. -/
def wrapInt (x : Int) : Int := (x + 2 ^ 63) % 2 ^ 64 - 2 ^ 63

/-- The magnitude `m·2^e` with its fraction discarded. -/
def truncMag (m : Nat) (e : Int) : Nat :=
  if 0 ≤ e then m * 2 ^ e.toNat else m / 2 ^ (-e).toNat

/-- The integer part of a float (rounded toward zero) when it is finite and fits
into `int`; `none` for NaN, the infinities and magnitudes out of range. -/
def f64Trunc : Float64 → Option Int
  | .fin neg m e =>
    let t := signedMant neg (truncMag m e)
    if minInt ≤ t ∧ t ≤ maxInt then some t else none
  | _ => none

/-- A colour of the library `gookit/color`: a basic colour (`color.Color`, an SGR
code) or a 24-bit colour (`color.RGBColor`, as built by `color.HEX`). -/
inductive Color where
  | basic (code : Nat)
  | hex (rgb : Nat)
deriving DecidableEq, Repr

/-- What the Go specification leaves to the implementation, and the colour library. -/
structure Runtime where
  /-- result of `int(f)` when `int` cannot represent `f` -/
  convUnrep : Float64 → Int
  /-- text produced by the `Sprint` method of a colour for a string -/
  sprint : Color → String → String

/-- The conversion `int(f)`. -/
def intOfF64 (R : Runtime) (f : Float64) : Int :=
  match f64Trunc f with
  | some t => t
  | none => wrapInt (R.convUnrep f)

/-! ## strings and slices -/

/-- The run-time panics that `ProgressFormat` can raise. -/
inductive Fault where
  | indexOutOfRange
  | negativeRepeatCount
  | repeatOverflow
deriving DecidableEq, Repr

deriving instance DecidableEq for Except

/-- Go's `strings.Repeat`: "It panics if count is negative or if the result of
(len(s) * count) overflows." -/
def stringsRepeat (s : String) (count : Int) : Except Fault String :=
  if count < 0 then .error .negativeRepeatCount
  else if maxInt < (s.utf8ByteSize : Int) * count then .error .repeatOverflow
  else .ok (String.join (List.replicate count.toNat s))

/-- Slice indexing `cs[i]`, which panics out of range. -/
def index (cs : List String) (i : Nat) : Except Fault String :=
  match cs.get? i with
  | some s => .ok s
  | none => .error .indexOutOfRange

/-! ## main.go: themes and the bar formatter -/

abbrev SimpleTheme := Int

def LiteTheme : SimpleTheme := 0
def LiteSquashTheme : SimpleTheme := 1
def HeavyTheme : SimpleTheme := 2
def HeavySquashTheme : SimpleTheme := 3
def ReallyHeavySquashTheme : SimpleTheme := 4
def HeavyNoBarTheme : SimpleTheme := 5

def emptyPosition : Nat := 0
def fullPosition : Nat := 1
def leftCapPosition : Nat := 2
def rightCapPosition : Nat := 3

def maxBarWidth : Int := 50

def FgRed : Color := .basic 31
def FgGreen : Color := .basic 32
def Magenta : Color := .basic 35
def Green : Color := FgGreen

def downloadColor : Color := FgRed
def scanColor : Color := FgGreen

def ColorCompleted : Color := .hex 0xfcba03
def ColorTodo : Color := .hex 0x777777
def auxInfoFormat : Color := .hex 0x777777

def completedStatus : String := "✔"

/-- The map `lookup`; a key that is absent yields the nil slice. -/
def lookup (theme : SimpleTheme) : List String :=
  if theme = LiteTheme then [" ", "─", "├", "┤"]
  else if theme = LiteSquashTheme then [" ", "─", "▕", "▏"]
  else if theme = HeavyTheme then ["━", "━", "┝", "┥"]
  else if theme = HeavySquashTheme then ["━", "━", "▕", "▏"]
  else if theme = ReallyHeavySquashTheme then ["━", "━", "▐", "▌"]
  else if theme = HeavyNoBarTheme then ["━", "━", "", ""]
  else []

structure Simple where
  width : Int
  charSet : List String
  doneColor : Color
  todoColor : Color
deriving DecidableEq, Repr

def NewSimpleWithTheme (width : Int) (theme : SimpleTheme) (doneHexColor todoHexColor : Color) :
    Simple :=
  { width := width, charSet := lookup theme, doneColor := doneHexColor,
    todoColor := todoHexColor }

/-- Lines 69-72: the ratio after `if completedRatio < 0 { completedRatio = 0 }`. -/
def completedRatio (ratio : Float64) : Float64 :=
  if f64Lt ratio f64Zero then f64Zero else ratio

/-- Line 73: `completedCount := int(completedRatio * float64(s.width))`. -/
def completedCount (R : Runtime) (s : Simple) (ratio : Float64) : Int :=
  intOfF64 R (f64Mul (completedRatio ratio) (f64OfInt s.width))

/-- Lines 74-77: `todoCount := s.width - completedCount`, raised to `0` when negative. -/
def todoCount (R : Runtime) (s : Simple) (ratio : Float64) : Int :=
  let t := wrapInt (s.width - completedCount R s ratio)
  if t < 0 then 0 else t

/-- The method `Simple.ProgressFormat`, applied to the value of `p.Ratio()`.  The
second component of the result is the returned `error` (`none` is `nil`). -/
def ProgressFormat (R : Runtime) (s : Simple) (ratio : Float64) :
    Except Fault (String × Option String) := do
  let cc := completedCount R s ratio
  let tc := todoCount R s ratio
  let full1 ← index s.charSet fullPosition
  let rep1 ← stringsRepeat full1 cc
  let completedSection := R.sprint s.doneColor rep1
  let full2 ← index s.charSet fullPosition
  let rep2 ← stringsRepeat full2 tc
  let todoSection := R.sprint s.todoColor rep2
  let l ← index s.charSet leftCapPosition
  let r ← index s.charSet rightCapPosition
  pure (l ++ completedSection ++ todoSection ++ r, none)

/-- The float64 constant `0.25`. -/
def f64Quarter : Float64 := .fin false 1 (-2)

/-- Modelled from the spec: the type `Spinner` of this repository, which is not in
`main.go` ("returns current glyph, then advances position by 1 modulo the
glyph-set length"). -/
structure Spinner where
  glyphSet : List String
  position : Nat
deriving DecidableEq, Repr

/-- Modelled from the spec: the constructor `NewSpinner` (a fresh cycle). -/
def NewSpinner (glyphSet : List String) : Spinner := { glyphSet := glyphSet, position := 0 }

/-- Modelled from the spec: the method `Spinner.Next`. -/
def Spinner.Next (sp : Spinner) : String × Spinner :=
  (sp.glyphSet.getD sp.position "",
   { sp with position := (sp.position + 1) % sp.glyphSet.length })

/-- The function `setupSpinner`, for the terminal width that `frame.GetTerminalSize`
reports and the glyph set `statusSet`. -/
def setupSpinner (R : Runtime) (termWidth : Int) (statusSet : List String) :
    Simple × Spinner :=
  let barWidth := intOfF64 R (f64Mul f64Quarter (f64OfInt termWidth))
  let barWidth := if barWidth > maxBarWidth then maxBarWidth else barWidth
  (NewSimpleWithTheme barWidth LiteTheme ColorCompleted ColorTodo, NewSpinner statusSet)

/-! ## main.go: the status line of a task -/

/-- The verb `%-31s`: the string, then blanks up to 31 code points. -/
def padRight31 (s : String) : String :=
  s ++ String.mk (List.replicate (31 - s.length) ' ')

/-- The text `fmt.Sprintf(statusTitleTemplate, spin, title)`, the template being
`" %s %-31s "`. -/
def statusTitle (spin title : String) : String :=
  " " ++ spin ++ " " ++ padRight31 title ++ " "

/-! ## main.go: scanningImage -/

/-- State of the goroutine of `scanningImage`: the counter `v`, the spinner, and
the texts written to the line so far (oldest first). -/
structure ScanState where
  v : Int
  spinner : Spinner
  line : List String
deriving DecidableEq, Repr

/-- The closure `formatFn` of `scanningImage` (lines 169-178). -/
def scanFormatFn (R : Runtime) (st : ScanState) (val : Int) : ScanState :=
  let (glyph, sp) := st.spinner.Next
  let spin := R.sprint Magenta glyph
  let title := R.sprint scanColor "Scanning image..."
  let auxInfo := R.sprint auxInfoFormat ("[vulnerabilities " ++ toString val ++ "]")
  { st with spinner := sp, line := st.line ++ [statusTitle spin title ++ auxInfo] }

/-- The loop `for ; v < 550; v++ { formatFn(v) }` (lines 185-188), for at most `n`
iterations. -/
def scanLoopN (R : Runtime) : Nat → ScanState → ScanState
  | 0, st => st
  | n + 1, st =>
    if st.v < 550 then scanLoopN R n { scanFormatFn R st st.v with v := st.v + 1 } else st

/-- The loop `for ; v < 550; v++ { formatFn(v) }`: the distance of `v` to 550 bounds
the number of iterations, so the loop ends with its condition false. -/
def scanLoop (R : Runtime) (st : ScanState) : ScanState :=
  scanLoopN R (550 - st.v).toNat st

/-- The goroutine of `scanningImage` (lines 181-195): first value, loop, then the
completion text built from the variable `v` as the loop left it. -/
def scanningImageTask (R : Runtime) (termWidth : Int) (statusSet : List String) : ScanState :=
  let st0 : ScanState :=
    { v := 0, spinner := (setupSpinner R termWidth statusSet).2, line := [] }
  let st1 := scanFormatFn R st0 0
  let st2 := scanLoop R { st1 with v := 1 }
  let spin := R.sprint Green completedStatus
  let title := R.sprint scanColor "Scanned image"
  let auxInfo := R.sprint auxInfoFormat ("[" ++ toString st2.v ++ " vulnerabilities]")
  { st2 with line := st2.line ++ [statusTitle spin title ++ auxInfo] }

/-! ## main.go: downloadProgress -/

/-- The conversion `string(i)` of an integer: the UTF-8 text of the code point `i`,
and of U+FFFD when `i` is not a valid code point. -/
def stringOfInt (i : Int) : String :=
  if 0 ≤ i ∧ (i < 0xD800 ∨ (0xDFFF < i ∧ i ≤ 0x10FFFF)) then
    String.singleton (Char.ofNat i.toNat)
  else String.singleton (Char.ofNat 0xFFFD)

/-- Modelled from the spec: the sized writer of the library `go-progress`, which is
not part of this repository's sources ("increments consumed counter by `len(n)`";
"ratio = `consumed/capacity`"). -/
structure SizedWriter where
  consumed : Int
  capacity : Int
  complete : Bool
deriving DecidableEq, Repr

/-- Modelled from the spec: `progress.NewSizedWriter`. -/
def NewSizedWriter (capacity : Int) : SizedWriter :=
  { consumed := 0, capacity := capacity, complete := false }

/-- Modelled from the spec: `Write`, which adds the byte length of its argument. -/
def SizedWriter.Write (cp : SizedWriter) (data : String) : SizedWriter :=
  { cp with consumed := cp.consumed + data.utf8ByteSize }

/-- Modelled from the spec: `SetComplete`. -/
def SizedWriter.SetComplete (cp : SizedWriter) : SizedWriter := { cp with complete := true }

/-- Modelled from the spec: the ratio of a single sized source, `consumed/capacity`
in float64. -/
def SizedWriter.ratio (cp : SizedWriter) : Float64 :=
  f64Div (f64OfInt cp.consumed) (f64OfInt cp.capacity)

/-- The producer goroutine of `downloadProgress` (lines 128-137): the writes for
`i = 0, …, 999`, then `SetComplete`. -/
def downloadProducer : SizedWriter :=
  ((List.range 1000).foldl (fun cp (i : Nat) => cp.Write (stringOfInt (i : Int)))
    (NewSizedWriter 1000)).SetComplete

/-- The closure `formatFn` of `downloadProgress` (lines 116-125), for the value of
`p.Ratio()` and the stage label `prog.Stage()`: the text written to the line, and
the spinner after `Next`. -/
def downloadFormatFn (R : Runtime) (formatter : Simple) (spinner : Spinner) (stage : String)
    (ratio : Float64) : Except Fault (String × Spinner) := do
  let (progStr, err) ← ProgressFormat R formatter ratio
  let (glyph, sp) := spinner.Next
  let spin := R.sprint Magenta glyph
  let title := R.sprint downloadColor "Download progress"
  match err with
  | some e => pure ("Error: " ++ e, sp)
  | none =>
    let auxInfo := R.sprint auxInfoFormat ("[" ++ stage ++ "]")
    pure (statusTitle spin title ++ progStr ++ " " ++ auxInfo, sp)

/-! ## main.go: main -/

/-- An effect of the main goroutine: `fmt.Fprint(output, s)`, `frame.New`,
`wg.Add(n)`, `fr.Append`, `frame.GetTerminalSize`, a `go` statement, `wg.Wait`,
`fr.Close`, `frame.Close`, and the message of `log.Fatalf`. -/
inductive Event where
  | print (s : String)
  | frameNew
  | wgAdd (n : Nat)
  | lineAppend
  | termSize
  | spawn (name : String)
  | wgWait
  | frClose
  | frameClose
  | fatal (msg : String)
deriving DecidableEq, Repr

/-- The main goroutine: its effects so far (oldest first), the calls deferred by
`main` (most recent first), and whether `os.Exit` has ended the process. -/
structure Proc where
  trace : List Event
  deferred : List (List Event)
  exited : Bool
deriving DecidableEq, Repr

/-- An effect happens unless the process has ended. -/
def Proc.emit (p : Proc) (e : Event) : Proc :=
  if p.exited then p else { p with trace := p.trace ++ [e] }

/-- A `defer` statement pushes a call. -/
def Proc.pushDefer (p : Proc) (body : List Event) : Proc :=
  if p.exited then p else { p with deferred := body :: p.deferred }

/-- Go's `log.Fatalf`: the message, then `os.Exit(1)` ("the program terminates
immediately; deferred functions are not run"). -/
def Proc.logFatalf (p : Proc) (msg : String) : Proc :=
  if p.exited then p else { p with trace := p.trace ++ [.fatal msg], exited := true }

/-- Return of the function: the deferred calls run, last pushed first. -/
def Proc.ret (p : Proc) : Proc :=
  if p.exited then p else { p with trace := p.trace ++ p.deferred.flatten, deferred := [] }

/-- Outcomes of the calls of `main` that can fail. -/
structure Env where
  frameNewErr : Bool
  scanAppendErr : Bool
  downloadAppendErr : Bool
deriving DecidableEq, Repr

/-- The sequence written at line 240. -/
def hideCursor : String := "\x1b[?25l"

/-- The sequence whose write is deferred at line 243. -/
def showCursor : String := "\x1b[?25h"

/-- The function `setupScreen` (lines 221-233). -/
def setupScreen (env : Env) (p : Proc) : Proc :=
  let p := p.emit .frameNew
  if env.frameNewErr then p.logFatalf "failed to create screen object" else p

/-- The part of `scanningImage` that runs on the main goroutine (lines 155-196);
`setupSpinner` queries the terminal size. -/
def scanningImage (env : Env) (p : Proc) : Proc :=
  let p := p.emit (.wgAdd 1)
  let p := p.emit .lineAppend
  let p := if env.scanAppendErr then p.logFatalf "error obtaining line from append" else p
  let p := p.emit .termSize
  p.emit (.spawn "scanningImage")

/-- The part of `downloadProgress` that runs on the main goroutine (lines 87-151);
the constructors of the progress objects have no effect of their own. -/
def downloadProgress (env : Env) (p : Proc) : Proc :=
  let p := p.emit (.wgAdd 1)
  let p := p.emit .lineAppend
  let p := if env.downloadAppendErr then p.logFatalf "error obtaining line from append" else p
  let p := p.emit .termSize
  let p := p.emit (.spawn "downloadProgress producer")
  p.emit (.spawn "downloadProgress consumer")

/-- The function `main` (lines 235-259). -/
def main (env : Env) : Proc :=
  let p : Proc := { trace := [], deferred := [], exited := false }
  let p := p.emit (.print hideCursor)
  let p := p.pushDefer [.print showCursor]
  let p := setupScreen env p
  let p := p.pushDefer [.wgWait, .frClose, .frameClose]
  let p := scanningImage env p
  let p := downloadProgress env p
  p.ret

/-! ## vocabulary of the statements -/

/-- The six themes that `main.go` names. -/
def namedThemes : List SimpleTheme :=
  [LiteTheme, LiteSquashTheme, HeavyTheme, HeavySquashTheme, ReallyHeavySquashTheme,
   HeavyNoBarTheme]

/-- The glyph of a theme at a position (the empty text where there is none). -/
def glyph (theme : SimpleTheme) (pos : Nat) : String := (lookup theme).getD pos ""

/-- The text `g` written `n` times in a row. -/
def repeatGlyph (g : String) (n : Int) : String := String.join (List.replicate n.toNat g)

/-- The text that the running display of `scanningImage` shows at its call number
`k`, for the counter value `k`: spinner glyph, title, and the count. -/
def runningLine (R : Runtime) (statusSet : List String) (k : Nat) : String :=
  statusTitle (R.sprint Magenta (statusSet.getD (k % statusSet.length) ""))
      (R.sprint scanColor "Scanning image...")
    ++ R.sprint auxInfoFormat ("[vulnerabilities " ++ toString (k : Int) ++ "]")

/-- The completion text of `scanningImage` for a count `n`. -/
def completionLine (R : Runtime) (n : Int) : String :=
  statusTitle (R.sprint Green completedStatus) (R.sprint scanColor "Scanned image")
    ++ R.sprint auxInfoFormat ("[" ++ toString n ++ " vulnerabilities]")

/-- The rational value of the dyadic number `m·2^e`. -/
def dyVal (m : Nat) (e : Int) : ℚ := (m : ℚ) * (2 : ℚ) ^ e

/-! ## two implementations of the conversion `int(f)` -/

/-- Rendering of a colour as a tag around the text (a stand-in for the escape
sequences of the colour library). -/
def tagSprint (c : Color) (t : String) : String :=
  match c with
  | .basic code => "<" ++ toString code ++ ">" ++ t ++ "</>"
  | .hex rgb => "<#" ++ toString rgb ++ ">" ++ t ++ "</>"

/-- The gc compiler on amd64: `CVTTSD2SQ` yields the "integer indefinite" value
`-2^63` for every float that `int` cannot represent. -/
def amd64 : Runtime :=
  { convUnrep := fun _ => -(2 ^ 63)
    sprint := tagSprint }

/-- The gc compiler on arm64: `FCVTZS` saturates, and yields `0` for NaN. -/
def arm64 : Runtime :=
  { convUnrep := fun f =>
      match f with
      | .nan => 0
      | .inf neg => if neg then minInt else maxInt
      | .fin neg _ _ => if neg then minInt else maxInt
    sprint := tagSprint }

/-! ## lemmas: bit length, rounding, dyadic values -/

theorem bitLenAux_spec (fuel : Nat) : ∀ n, n ≤ fuel →
    n < 2 ^ bitLenAux fuel n ∧ (n ≠ 0 → 2 ^ (bitLenAux fuel n - 1) ≤ n) := by
  induction fuel with
  | zero =>
    intro n hn
    have : n = 0 := by omega
    subst this
    simp [bitLenAux]
  | succ k ih =>
    intro n hn
    by_cases h0 : n = 0
    · subst h0; simp [bitLenAux]
    · have hk : n / 2 ≤ k := by omega
      obtain ⟨h1, h2⟩ := ih (n / 2) hk
      simp only [bitLenAux, h0, if_false, Nat.add_sub_cancel]
      constructor
      · rw [pow_succ]; omega
      · intro _
        by_cases h3 : n / 2 = 0
        · have : bitLenAux k (n / 2) = 0 := by
            rw [h3]; cases k <;> simp [bitLenAux]
          rw [this]; simp; omega
        · have h4 := h2 h3
          have h5 : bitLenAux k (n / 2) ≠ 0 := by
            intro h6
            rw [h6] at h1
            simp at h1
            exact h3 h1
          have : bitLenAux k (n / 2) = (bitLenAux k (n / 2) - 1) + 1 := by omega
          rw [this, pow_succ]; omega

theorem lt_two_pow_bitLen (n : Nat) : n < 2 ^ bitLen n :=
  (bitLenAux_spec n n le_rfl).1

theorem two_pow_bitLen_le (n : Nat) (h : n ≠ 0) : 2 ^ (bitLen n - 1) ≤ n :=
  (bitLenAux_spec n n le_rfl).2 h

theorem bitLen_pos (n : Nat) (h : n ≠ 0) : 0 < bitLen n := by
  by_contra h0
  have h1 : bitLen n = 0 := by omega
  have h2 := lt_two_pow_bitLen n
  rw [h1] at h2
  simp at h2
  exact h h2

theorem bitLen_le_of_lt (n k : Nat) (h : n < 2 ^ k) : bitLen n ≤ k := by
  by_cases h0 : n = 0
  · subst h0; simp [bitLen, bitLenAux]
  · by_contra hc
    have h1 := two_pow_bitLen_le n h0
    have h2 : 2 ^ k ≤ 2 ^ (bitLen n - 1) := Nat.pow_le_pow_right (by norm_num) (by omega)
    omega

theorem lt_bitLen_of_le (n k : Nat) (h : 2 ^ k ≤ n) : k < bitLen n := by
  by_contra hc
  have h1 := lt_two_pow_bitLen n
  have h2 : 2 ^ bitLen n ≤ 2 ^ k := Nat.pow_le_pow_right (by norm_num) (by omega)
  omega

theorem roundShift_le (m s K : Nat) (h : m ≤ K * 2 ^ s) : roundShift m s ≤ K := by
  have hp : 0 < 2 ^ s := Nat.pow_pos (by norm_num)
  have hq : m / 2 ^ s ≤ K := by
    calc m / 2 ^ s ≤ K * 2 ^ s / 2 ^ s := Nat.div_le_div_right h
      _ = K := Nat.mul_div_cancel _ hp
  have hdm := Nat.div_add_mod m (2 ^ s)
  have hml := Nat.mod_lt m hp
  by_cases hr : m % 2 ^ s = 0
  · simp only [roundShift, hr]
    simp [hp, hq]
  · have hlt : m / 2 ^ s < K := by
      by_contra hc
      have h1 : K ≤ m / 2 ^ s := by omega
      have h2 : K = m / 2 ^ s := by omega
      rw [h2] at h
      have h3 : 2 ^ s * (m / 2 ^ s) = m / 2 ^ s * 2 ^ s := Nat.mul_comm _ _
      omega
    simp only [roundShift]
    split_ifs <;> omega

theorem le_roundShift (m s K : Nat) (h : K * 2 ^ s ≤ m) : K ≤ roundShift m s := by
  have hp : 0 < 2 ^ s := Nat.pow_pos (by norm_num)
  have hq : K ≤ m / 2 ^ s := (Nat.le_div_iff_mul_le hp).2 h
  simp only [roundShift]
  split_ifs <;> omega

theorem roundShift_exact (K s : Nat) : roundShift (K * 2 ^ s) s = K :=
  le_antisymm (roundShift_le _ _ _ le_rfl) (le_roundShift _ _ _ le_rfl)

theorem two_zpow_pos (e : Int) : (0 : ℚ) < (2 : ℚ) ^ e := zpow_pos (by norm_num) e

theorem dyVal_nonneg (m : Nat) (e : Int) : 0 ≤ dyVal m e :=
  mul_nonneg (Nat.cast_nonneg m) (le_of_lt (two_zpow_pos e))

theorem dyVal_shift (m k : Nat) (e : Int) : dyVal (m * 2 ^ k) e = dyVal m (e + k) := by
  unfold dyVal
  rw [zpow_add₀ (by norm_num : (2 : ℚ) ≠ 0), zpow_natCast]
  push_cast
  ring

/-- Comparison of two dyadic numbers reduces to a comparison of naturals. -/
theorem dyVal_le_iff (m m' k : Nat) (e : Int) :
    dyVal m e ≤ dyVal m' (e + k) ↔ m ≤ m' * 2 ^ k := by
  rw [← dyVal_shift]
  unfold dyVal
  rw [mul_le_mul_right (two_zpow_pos e)]
  exact_mod_cast Iff.rfl

theorem dyVal_le_iff' (m m' k : Nat) (e : Int) :
    dyVal m (e + k) ≤ dyVal m' e ↔ m * 2 ^ k ≤ m' := by
  rw [← dyVal_shift]
  unfold dyVal
  rw [mul_le_mul_right (two_zpow_pos e)]
  exact_mod_cast Iff.rfl

theorem dyVal_lt_iff (m m' k : Nat) (e : Int) :
    dyVal m e < dyVal m' (e + k) ↔ m < m' * 2 ^ k := by
  rw [← not_le, ← not_le, dyVal_le_iff']

theorem dyVal_lt_iff' (m m' k : Nat) (e : Int) :
    dyVal m (e + k) < dyVal m' e ↔ m * 2 ^ k < m' := by
  rw [← not_le, ← not_le, dyVal_le_iff]

theorem dyVal_mono (m m' : Nat) (e : Int) (h : m ≤ m') : dyVal m e ≤ dyVal m' e := by
  have := (dyVal_le_iff m m' 0 e)
  simp only [Nat.cast_zero, add_zero, pow_zero, mul_one] at this
  exact this.2 h

theorem dyVal_carry (e : Int) : dyVal (2 ^ 52) (e + 1) = dyVal (2 ^ 53) e := by
  have := dyVal_shift (2 ^ 52) 1 e
  simp only [Nat.cast_one] at this
  rw [← this]
  norm_num

/-- From `2^1024` on a magnitude has more than `1024 - e` bits. -/
theorem overflow_iff (m : Nat) (e : Int) (hm : m ≠ 0) :
    (bitLen m : Int) + e > 1024 ↔ dyVal 1 1024 ≤ dyVal m e := by
  have hb := lt_two_pow_bitLen m
  have hl := two_pow_bitLen_le m hm
  have hpos := bitLen_pos m hm
  constructor
  · intro h
    -- 2^(b-1) ≤ m and e + (b-1) ≥ 1024
    obtain ⟨k, hk⟩ : ∃ k : Nat, e + ((bitLen m - 1 : Nat) : Int) = 1024 + k :=
      ⟨(e + ((bitLen m - 1 : Nat) : Int) - 1024).toNat, by omega⟩
    calc dyVal 1 1024 ≤ dyVal 1 (1024 + k) := by
          rw [dyVal_le_iff]; simpa using Nat.one_le_two_pow
      _ = dyVal (1 * 2 ^ (bitLen m - 1)) e := by rw [dyVal_shift, hk]
      _ ≤ dyVal m e := dyVal_mono _ _ _ (by simpa using hl)
  · intro h
    by_contra hc
    obtain ⟨k, hk⟩ : ∃ k : Nat, e + (bitLen m : Int) + k = 1024 :=
      ⟨(1024 - (e + (bitLen m : Int))).toNat, by omega⟩
    have h1 : dyVal m e < dyVal (1 * 2 ^ bitLen m) e := by
      have := (dyVal_lt_iff m (1 * 2 ^ bitLen m) 0 e)
      simp only [Nat.cast_zero, add_zero, pow_zero, mul_one] at this
      exact this.2 (by simpa using hb)
    have h2 : dyVal (1 * 2 ^ bitLen m) e ≤ dyVal 1 1024 := by
      rw [dyVal_shift, ← hk, dyVal_le_iff]; simpa using Nat.one_le_two_pow
    exact absurd (lt_of_lt_of_le h1 h2) (not_lt.2 h)

theorem packF64_val (neg : Bool) (m : Nat) (e : Int) :
    (packF64 neg m e = .inf neg ∧ dyVal 1 1024 ≤ dyVal m e) ∨
    (∃ m' e', packF64 neg m e = .fin neg m' e' ∧ dyVal m' e' = dyVal m e ∧
      dyVal m e < dyVal 1 1024) := by
  unfold packF64
  by_cases hc : m = 2 ^ 53
  · simp only [hc, if_true]
    have hne : (2 : Nat) ^ 52 ≠ 0 := by norm_num
    by_cases ho : (2 : Nat) ^ 52 ≠ 0 ∧ (bitLen (2 ^ 52) : Int) + (e + 1) > 1024
    · left
      rw [if_pos ho]
      refine ⟨rfl, ?_⟩
      rw [← dyVal_carry]
      exact (overflow_iff _ _ hne).1 ho.2
    · right
      rw [if_neg ho]
      refine ⟨_, _, rfl, dyVal_carry e, ?_⟩
      rw [← dyVal_carry]
      have : ¬ ((bitLen (2 ^ 52) : Int) + (e + 1) > 1024) := fun h => ho ⟨hne, h⟩
      rw [overflow_iff _ _ hne] at this
      exact not_le.1 this
  · simp only [hc, if_false]
    by_cases ho : m ≠ 0 ∧ (bitLen m : Int) + e > 1024
    · left
      rw [if_pos ho]
      exact ⟨rfl, (overflow_iff _ _ ho.1).1 ho.2⟩
    · right
      rw [if_neg ho]
      refine ⟨_, _, rfl, rfl, ?_⟩
      by_cases hm : m = 0
      · subst hm
        have h0 : dyVal 0 e = 0 := by simp [dyVal]
        rw [h0]
        unfold dyVal
        exact mul_pos (by norm_num) (two_zpow_pos 1024)
      · have : ¬ ((bitLen m : Int) + e > 1024) := fun h => ho ⟨hm, h⟩
        rw [overflow_iff _ _ hm] at this
        exact not_le.1 this

/-- Rounding never passes a representable number above the exact value. -/
theorem roundCore_le (m : Nat) (e : Int) (my : Nat) (ey : Int) (hmy : my < 2 ^ 53)
    (hey : -1074 ≤ ey) (h : dyVal m e ≤ dyVal my ey) :
    dyVal (roundMant m e) (roundExp m e) ≤ dyVal my ey := by
  unfold roundMant roundExp
  by_cases hs : roundQuantum m e ≤ 0
  · simp only [hs, if_true]; exact h
  · simp only [hs, if_false]
    obtain ⟨S, hS⟩ : ∃ S : Nat, roundQuantum m e = S := ⟨(roundQuantum m e).toNat, by omega⟩
    rw [hS]
    simp only [Int.toNat_ofNat]
    have hSpos : 0 < S := by omega
    by_cases hcase : e + S ≤ ey
    · obtain ⟨k, hk⟩ : ∃ k : Nat, ey = e + S + k := ⟨(ey - (e + S)).toNat, by omega⟩
      have h1 : dyVal my ey = dyVal (my * 2 ^ k) (e + S) := by rw [dyVal_shift, hk]
      rw [h1] at h ⊢
      rw [dyVal_le_iff] at h
      exact dyVal_mono _ _ _ (roundShift_le _ _ _ h)
    · exfalso
      have hq : roundQuantum m e = (bitLen m : Int) - 53 := by
        unfold roundQuantum at hS ⊢
        omega
      have hb : bitLen m = S + 53 := by omega
      have hm0 : m ≠ 0 := by
        intro h0
        have : bitLen m = 0 := by subst h0; simp [bitLen, bitLenAux]
        omega
      have hl := two_pow_bitLen_le m hm0
      rw [hb] at hl
      have hl' : 2 ^ (S + 52) ≤ m := by simpa using hl
      by_cases he : ey ≤ e
      · obtain ⟨t, ht⟩ : ∃ t : Nat, e = ey + t := ⟨(e - ey).toNat, by omega⟩
        rw [ht, dyVal_le_iff'] at h
        have h2 : 2 ^ 53 ≤ 2 ^ (S + 52) := Nat.pow_le_pow_right (by norm_num) (by omega)
        have h3 : m ≤ m * 2 ^ t := Nat.le_mul_of_pos_right _ (Nat.pow_pos (by norm_num))
        omega
      · obtain ⟨t, ht⟩ : ∃ t : Nat, ey = e + t := ⟨(ey - e).toNat, by omega⟩
        rw [ht, dyVal_le_iff] at h
        have ht' : t + 1 ≤ S := by omega
        have h2 : my * 2 ^ t < 2 ^ 53 * 2 ^ t :=
          Nat.mul_lt_mul_of_pos_right hmy (Nat.pow_pos (by norm_num))
        have h3 : 2 ^ 53 * 2 ^ t ≤ 2 ^ (S + 52) := by
          rw [← pow_add]; exact Nat.pow_le_pow_right (by norm_num) (by omega)
        omega

/-- Rounding never passes a representable number below the exact value. -/
theorem le_roundCore (m : Nat) (e : Int) (my : Nat) (ey : Int) (hmy : my < 2 ^ 53)
    (hey : -1074 ≤ ey) (h : dyVal my ey ≤ dyVal m e) :
    dyVal my ey ≤ dyVal (roundMant m e) (roundExp m e) := by
  unfold roundMant roundExp
  by_cases hs : roundQuantum m e ≤ 0
  · simp only [hs, if_true]; exact h
  · simp only [hs, if_false]
    obtain ⟨S, hS⟩ : ∃ S : Nat, roundQuantum m e = S := ⟨(roundQuantum m e).toNat, by omega⟩
    rw [hS]
    simp only [Int.toNat_ofNat]
    have hSpos : 0 < S := by omega
    by_cases hcase : e + S ≤ ey
    · obtain ⟨k, hk⟩ : ∃ k : Nat, ey = e + S + k := ⟨(ey - (e + S)).toNat, by omega⟩
      have h1 : dyVal my ey = dyVal (my * 2 ^ k) (e + S) := by rw [dyVal_shift, hk]
      rw [h1] at h ⊢
      rw [dyVal_le_iff'] at h
      exact dyVal_mono _ _ _ (le_roundShift _ _ _ h)
    · have hq : roundQuantum m e = (bitLen m : Int) - 53 := by
        unfold roundQuantum at hS ⊢
        omega
      have hb : bitLen m = S + 53 := by omega
      have hm0 : m ≠ 0 := by
        intro h0
        have : bitLen m = 0 := by subst h0; simp [bitLen, bitLenAux]
        omega
      have hl := two_pow_bitLen_le m hm0
      rw [hb] at hl
      have hl' : 2 ^ 52 * 2 ^ S ≤ m := by
        rw [← pow_add]; simpa [Nat.add_comm] using hl
      have hr := le_roundShift m S (2 ^ 52) hl'
      obtain ⟨j, hj⟩ : ∃ j : Nat, e + S = ey + (j + 1) := ⟨(e + S - ey - 1).toNat, by omega⟩
      rw [hj]
      have := (dyVal_le_iff my (roundShift m S) (j + 1) ey)
      push_cast at this
      rw [this]
      have h2 : 2 ^ 53 ≤ roundShift m S * 2 ^ (j + 1) := by
        calc 2 ^ 53 = 2 ^ 52 * 2 ^ 1 := by norm_num
          _ ≤ roundShift m S * 2 ^ (j + 1) :=
            Nat.mul_le_mul hr (Nat.pow_le_pow_right (by norm_num) (by omega))
      omega

theorem roundMant_le (m : Nat) (e : Int) : roundMant m e ≤ 2 ^ 53 := by
  unfold roundMant
  have hb := lt_two_pow_bitLen m
  by_cases hs : roundQuantum m e ≤ 0
  · simp only [hs, if_true]
    have h1 : bitLen m ≤ 53 := by unfold roundQuantum at hs; omega
    have h2 : 2 ^ bitLen m ≤ 2 ^ 53 := Nat.pow_le_pow_right (by norm_num) h1
    omega
  · simp only [hs, if_false]
    apply roundShift_le
    have h1 : bitLen m ≤ 53 + (roundQuantum m e).toNat := by unfold roundQuantum at hs ⊢; omega
    have h2 : 2 ^ bitLen m ≤ 2 ^ (53 + (roundQuantum m e).toNat) :=
      Nat.pow_le_pow_right (by norm_num) h1
    rw [pow_add] at h2
    omega

theorem roundExp_ge (m : Nat) (e : Int) : -1074 ≤ roundExp m e := by
  unfold roundExp roundQuantum
  split_ifs <;> omega

theorem packF64_fin (neg n' : Bool) (m m' : Nat) (e e' : Int) (hm : m ≤ 2 ^ 53)
    (he : -1074 ≤ e) (h : packF64 neg m e = .fin n' m' e') :
    n' = neg ∧ m' < 2 ^ 53 ∧ -1074 ≤ e' ∧ dyVal m' e' = dyVal m e := by
  unfold packF64 at h
  by_cases hc : m = 2 ^ 53
  · simp only [hc, if_true] at h
    split_ifs at h
    injection h with h1 h2 h3
    subst h1 h2 h3
    refine ⟨rfl, by norm_num, by omega, ?_⟩
    rw [hc]; exact dyVal_carry e
  · simp only [hc, if_false] at h
    split_ifs at h
    injection h with h1 h2 h3
    subst h1 h2 h3
    exact ⟨rfl, by omega, he, rfl⟩

/-- A finite rounding result is a finite float64 datum with the sign asked for. -/
theorem roundNE_fin (neg n' : Bool) (m m' : Nat) (e e' : Int)
    (h : roundNE neg m e = .fin n' m' e') :
    n' = neg ∧ m' < 2 ^ 53 ∧ -1074 ≤ e' ∧
      dyVal m' e' = dyVal (roundMant m e) (roundExp m e) :=
  packF64_fin neg n' _ m' _ e' (roundMant_le m e) (roundExp_ge m e) h

/-- Monotonicity of rounding against a representable lower bound. -/
theorem roundNE_fin_ge (neg n' : Bool) (m m' : Nat) (e e' : Int)
    (h : roundNE neg m e = .fin n' m' e') (my : Nat) (ey : Int) (hmy : my < 2 ^ 53)
    (hey : -1074 ≤ ey) (hle : dyVal my ey ≤ dyVal m e) : dyVal my ey ≤ dyVal m' e' := by
  rw [(roundNE_fin neg n' m m' e e' h).2.2.2]
  exact le_roundCore m e my ey hmy hey hle

/-- Monotonicity of rounding against a representable upper bound. -/
theorem roundNE_fin_le (neg n' : Bool) (m m' : Nat) (e e' : Int)
    (h : roundNE neg m e = .fin n' m' e') (my : Nat) (ey : Int) (hmy : my < 2 ^ 53)
    (hey : -1074 ≤ ey) (hle : dyVal m e ≤ dyVal my ey) : dyVal m' e' ≤ dyVal my ey := by
  rw [(roundNE_fin neg n' m m' e e' h).2.2.2]
  exact roundCore_le m e my ey hmy hey hle

/-- Below a finite representable bound the rounding result is finite. -/
theorem roundNE_isFin (neg : Bool) (m : Nat) (e : Int) (my : Nat) (ey : Int)
    (hmy : my < 2 ^ 53) (hey : -1074 ≤ ey) (hfin : dyVal my ey < dyVal 1 1024)
    (hle : dyVal m e ≤ dyVal my ey) : ∃ m' e', roundNE neg m e = .fin neg m' e' := by
  have h1 := roundCore_le m e my ey hmy hey hle
  rcases packF64_val neg (roundMant m e) (roundExp m e) with ⟨_, h2⟩ | ⟨m', e', h2, _, _⟩
  · exact absurd (lt_of_le_of_lt (le_trans h2 h1) hfin) (lt_irrefl _)
  · exact ⟨m', e', h2⟩

theorem le_truncMag_iff (K m : Nat) (e : Int) : K ≤ truncMag m e ↔ dyVal K 0 ≤ dyVal m e := by
  unfold truncMag
  by_cases he : 0 ≤ e
  · simp only [he, if_true]
    obtain ⟨k, hk⟩ : ∃ k : Nat, e = 0 + k := ⟨e.toNat, by omega⟩
    rw [hk, dyVal_le_iff]
    simp
  · simp only [he, if_false]
    obtain ⟨k, hk⟩ : ∃ k : Nat, e + k = 0 := ⟨(-e).toNat, by omega⟩
    have hk' : (-e).toNat = k := by omega
    rw [hk', ← hk, dyVal_le_iff']
    exact Nat.le_div_iff_mul_le (Nat.pow_pos (by norm_num))

theorem truncMag_congr (m m' : Nat) (e e' : Int) (h : dyVal m e = dyVal m' e') :
    truncMag m e = truncMag m' e' := by
  apply le_antisymm
  · rw [le_truncMag_iff, ← h, ← le_truncMag_iff]
  · rw [le_truncMag_iff, h, ← le_truncMag_iff]

theorem truncMag_mono (m m' : Nat) (e e' : Int) (h : dyVal m e ≤ dyVal m' e') :
    truncMag m e ≤ truncMag m' e' := by
  rw [le_truncMag_iff]
  exact le_trans ((le_truncMag_iff _ _ _).1 le_rfl) h

theorem truncMag_nat (K : Nat) : truncMag K 0 = K := by
  simp [truncMag]

theorem utf8ByteSize_singleton (c : Char) : (String.singleton c).utf8ByteSize = c.utf8Size := by
  simp [String.singleton, String.utf8ByteSize, String.utf8ByteSize.go]

theorem stringOfInt_len (i : Nat) (h : i < 1000) :
    (stringOfInt (i : Int)).utf8ByteSize = if i < 128 then 1 else 2 := by
  have hv : ((0:Int) ≤ (i:Int) ∧ ((i:Int) < 0xD800 ∨ (0xDFFF < (i:Int) ∧ (i:Int) ≤ 0x10FFFF))) := by omega
  unfold stringOfInt
  rw [if_pos hv, utf8ByteSize_singleton]
  simp only [Int.toNat_ofNat]
  have hvalid : i.isValidChar := by unfold Nat.isValidChar; omega
  have hval : (Char.ofNat i).val.toNat = i := by
    simp only [Char.ofNat, hvalid, dite_true, Char.ofNatAux]
    rfl
  have hle : ∀ a b : UInt32, a ≤ b ↔ a.toNat ≤ b.toNat := fun a b => Iff.rfl
  have h1 : (UInt32.ofNatCore 127 Char.utf8Size.proof_1).toNat = 127 := rfl
  have h2 : (UInt32.ofNatCore 2047 Char.utf8Size.proof_2).toNat = 2047 := rfl
  unfold Char.utf8Size
  simp only [hle, hval, h1, h2]
  split_ifs <;> omega

theorem producer_fold (n : Nat) (h : n ≤ 1000) :
    (List.range n).foldl (fun cp (i : Nat) => SizedWriter.Write cp (stringOfInt (i : Int))) (NewSizedWriter 1000)
      = { consumed := if n ≤ 128 then (n : Int) else 2 * (n : Int) - 128, capacity := 1000,
          complete := false } := by
  induction n with
  | zero => rfl
  | succ k ih =>
    rw [List.range_succ, List.foldl_append, ih (by omega)]
    simp only [List.foldl_cons, List.foldl_nil, SizedWriter.Write]
    have := stringOfInt_len k (by omega)
    rw [this]
    have hc : ((if k ≤ 128 then (k : Int) else 2 * (k : Int) - 128) + ((if k < 128 then 1 else 2 : Nat) : Int))
        = (if k + 1 ≤ 128 then ((k + 1 : Nat) : Int) else 2 * ((k + 1 : Nat) : Int) - 128) := by
      split_ifs <;> push_cast <;> omega
    rw [hc]

theorem downloadProducer_eq : downloadProducer = { consumed := 1872, capacity := 1000, complete := true } := by
  unfold downloadProducer
  rw [producer_fold 1000 le_rfl]
  rfl

theorem dyVal_mul (m m' : Nat) (e e' : Int) :
    dyVal (m * m') (e + e') = dyVal m e * dyVal m' e' := by
  unfold dyVal
  rw [zpow_add₀ (by norm_num : (2 : ℚ) ≠ 0)]
  push_cast
  ring

theorem dyVal_zero (e : Int) : dyVal 0 e = 0 := by simp [dyVal]

theorem dyVal_eq_zero (m : Nat) (e : Int) (h : dyVal m e = 0) : m = 0 := by
  unfold dyVal at h
  rcases mul_eq_zero.1 h with h1 | h1
  · exact_mod_cast h1
  · exact absurd h1 (ne_of_gt (two_zpow_pos e))

theorem dyVal_one_zero : dyVal 1 0 = 1 := by simp [dyVal]

theorem dyVal_le_of_exp (m m' : Nat) (e e' : Int) (k k' : Nat) (c : Int)
    (he : e = c + k) (he' : e' = c + k') (h : m * 2 ^ k ≤ m' * 2 ^ k') :
    dyVal m e ≤ dyVal m' e' := by
  rw [he, he', ← dyVal_shift, ← dyVal_shift]
  exact dyVal_mono _ _ _ h

theorem roundMant_zero (e : Int) : roundMant 0 e = 0 := by
  unfold roundMant
  split_ifs
  · rfl
  · exact Nat.le_zero.1 (roundShift_le 0 _ 0 (by simp))

/-- A finite rounding result lies below `2^1024`. -/
theorem roundNE_fin_lt (neg n' : Bool) (m m' : Nat) (e e' : Int)
    (h : roundNE neg m e = .fin n' m' e') : dyVal m' e' < dyVal 1 1024 := by
  rcases packF64_val neg (roundMant m e) (roundExp m e) with ⟨h1, _⟩ | ⟨m2, e2, h1, h2, h3⟩
  · unfold roundNE at h; rw [h1] at h; cases h
  · unfold roundNE at h; rw [h1] at h
    injection h with _ hm he
    subst hm he
    rw [h2]; exact h3

theorem two63_lt : dyVal (2 ^ 52) 11 < dyVal 1 1024 := by
  have h := dyVal_lt_iff (2 ^ 52) 1 1013 11
  have e1 : (11 : Int) + (1013 : Nat) = 1024 := by norm_num
  rw [e1] at h
  rw [h]
  have : (2 : Nat) ^ 52 < 2 ^ 1013 := Nat.pow_lt_pow_right (by norm_num) (by norm_num)
  simpa using this

theorem dyVal_two63 : dyVal (2 ^ 52) 11 = dyVal (2 ^ 63) 0 := by
  have := dyVal_shift (2 ^ 52) 11 0
  simp only [zero_add] at this
  rw [show ((11 : Nat) : Int) = 11 from rfl] at this
  rw [← this]
  norm_num

/-- The conversion `float64(w)` of a non-negative `int` is finite and non-negative. -/
theorem f64OfInt_fin (w : Int) (h0 : 0 ≤ w) (h1 : w ≤ maxInt) :
    ∃ M E, f64OfInt w = .fin false M E ∧ M < 2 ^ 53 ∧ -1074 ≤ E ∧
      dyVal M E = dyVal (roundMant w.natAbs 0) (roundExp w.natAbs 0) ∧
      dyVal M E < dyVal 1 1024 := by
  have hneg : decide (w < 0) = false := by simp; omega
  unfold f64OfInt
  rw [hneg]
  have hle : dyVal w.natAbs 0 ≤ dyVal (2 ^ 52) 11 := by
    rw [dyVal_two63]
    apply dyVal_mono
    unfold maxInt at h1
    omega
  obtain ⟨M, E, hME⟩ := roundNE_isFin false w.natAbs 0 (2 ^ 52) 11 (by norm_num) (by norm_num)
    two63_lt hle
  obtain ⟨_, hM, hE, hv⟩ := roundNE_fin _ _ _ _ _ _ hME
  exact ⟨M, E, hME, hM, hE, hv, roundNE_fin_lt _ _ _ _ _ _ hME⟩

/-- Below `2^53` the conversion `float64(w)` is exact. -/
theorem roundCore_small (n : Nat) (h : n < 2 ^ 53) :
    roundMant n 0 = n ∧ roundExp n 0 = 0 := by
  have hb := bitLen_le_of_lt n 53 h
  have hq : roundQuantum n 0 ≤ 0 := by unfold roundQuantum; omega
  simp [roundMant, roundExp, hq]

theorem lt_roundShift_succ (m s : Nat) : m < (roundShift m s + 1) * 2 ^ s := by
  have hp : 0 < 2 ^ s := Nat.pow_pos (by norm_num)
  have h1 : m / 2 ^ s ≤ roundShift m s := le_roundShift m s _ (Nat.div_mul_le_self m (2 ^ s))
  have h2 : m < (m / 2 ^ s + 1) * 2 ^ s := by
    have := Nat.div_add_mod m (2 ^ s)
    have := Nat.mod_lt m hp
    rw [Nat.add_mul, Nat.mul_comm]
    omega
  calc m < (m / 2 ^ s + 1) * 2 ^ s := h2
    _ ≤ (roundShift m s + 1) * 2 ^ s := Nat.mul_le_mul_right _ (by omega)

theorem dyadicLt_iff (a b : Nat) (e1 e2 : Int) :
    dyadicLt (a : Int) e1 (b : Int) e2 = true ↔ dyVal a e1 < dyVal b e2 := by
  unfold dyadicLt
  obtain ⟨k1, hk1⟩ : ∃ k : Nat, e1 = min e1 e2 + k := ⟨(e1 - min e1 e2).toNat, by omega⟩
  obtain ⟨k2, hk2⟩ : ∃ k : Nat, e2 = min e1 e2 + k := ⟨(e2 - min e1 e2).toNat, by omega⟩
  have h1 : (e1 - min e1 e2).toNat = k1 := by omega
  have h2 : (e2 - min e1 e2).toNat = k2 := by omega
  rw [h1, h2, decide_eq_true_iff]
  have hv1 : dyVal a e1 = dyVal (a * 2 ^ k1) (min e1 e2) := by rw [dyVal_shift, ← hk1]
  have hv2 : dyVal b e2 = dyVal (b * 2 ^ k2) (min e1 e2) := by rw [dyVal_shift, ← hk2]
  rw [hv1, hv2]
  have := dyVal_lt_iff (a * 2 ^ k1) (b * 2 ^ k2) 0 (min e1 e2)
  simp only [Nat.cast_zero, add_zero, pow_zero, mul_one] at this
  rw [this]
  exact_mod_cast Iff.rfl

theorem signedMant_false (m : Nat) : signedMant false m = (m : Int) := rfl

theorem signedMant_true (m : Nat) : signedMant true m = -(m : Int) := rfl

/-- The test `ratio < 0` on a finite datum. -/
theorem f64Lt_zero_fin (n : Bool) (m : Nat) (e : Int) :
    f64Lt (.fin n m e) f64Zero = (n && decide (m ≠ 0)) := by
  have hp : (0 : Int) < 2 ^ (e - min e 0).toNat := by positivity
  show dyadicLt (signedMant n m) e (signedMant false 0) 0 = _
  unfold dyadicLt
  rw [signedMant_false]
  cases n
  · rw [signedMant_false]
    simp only [Bool.false_and, decide_eq_false_iff_not, not_lt, Nat.cast_zero, zero_mul]
    positivity
  · rw [signedMant_true]
    simp only [Bool.true_and, Nat.cast_zero, zero_mul]
    by_cases hm : m = 0
    · subst hm; simp
    · have h1 : (0 : Int) < m := by omega
      have h2 := mul_pos h1 hp
      have h3 : -(m : Int) * 2 ^ (e - min e 0).toNat < 0 := by linarith
      simp only [h3, decide_True, ne_eq, hm, not_false_eq_true]

theorem lookup_named (theme : SimpleTheme) (h : theme ∈ namedThemes) :
    ∃ g0 g1 g2 g3, lookup theme = [g0, g1, g2, g3] ∧ g1.utf8ByteSize = 3 ∧
      glyph theme fullPosition = g1 ∧ glyph theme leftCapPosition = g2 ∧
      glyph theme rightCapPosition = g3 := by
  simp only [namedThemes, List.mem_cons, List.mem_singleton, List.not_mem_nil, or_false] at h
  rcases h with h | h | h | h | h | h <;> subst h <;>
    exact ⟨_, _, _, _, rfl, by decide, rfl, rfl, rfl⟩

/-- What `ProgressFormat` returns once its two repeat counts are admissible. -/
theorem ProgressFormat_eq (R : Runtime) (s : Simple) (r : Float64) (g0 g1 g2 g3 : String)
    (hcs : s.charSet = [g0, g1, g2, g3]) (h1 : 0 ≤ completedCount R s r)
    (h2 : (g1.utf8ByteSize : Int) * completedCount R s r ≤ maxInt)
    (h3 : (g1.utf8ByteSize : Int) * todoCount R s r ≤ maxInt) :
    ProgressFormat R s r = .ok (g2 ++ R.sprint s.doneColor (repeatGlyph g1 (completedCount R s r))
      ++ R.sprint s.todoColor (repeatGlyph g1 (todoCount R s r)) ++ g3, none) := by
  have h0 : 0 ≤ todoCount R s r := by
    unfold todoCount
    simp only
    split_ifs <;> omega
  have e1 : stringsRepeat g1 (completedCount R s r) =
      .ok (repeatGlyph g1 (completedCount R s r)) := by
    unfold stringsRepeat
    rw [if_neg (by omega), if_neg (by omega)]
    rfl
  have e2 : stringsRepeat g1 (todoCount R s r) = .ok (repeatGlyph g1 (todoCount R s r)) := by
    unfold stringsRepeat
    rw [if_neg (by omega), if_neg (by omega)]
    rfl
  unfold ProgressFormat
  simp only [hcs, index, fullPosition, leftCapPosition, rightCapPosition, List.get?, e1, e2,
    bind, Except.bind, pure, Except.pure]

/-- The error result of `ProgressFormat` is always `nil`. -/
theorem ProgressFormat_err (R : Runtime) (s : Simple) (r : Float64) (str : String)
    (err : Option String) (h : ProgressFormat R s r = .ok (str, err)) : err = none := by
  unfold ProgressFormat at h
  simp only [bind, Except.bind, pure, Except.pure] at h
  split at h
  · cases h
  · split at h
    · cases h
    · split at h
      · cases h
      · split at h
        · cases h
        · split at h
          · cases h
          · split at h
            · cases h
            · injection h with h
              injection h with _ h
              exact h.symm

theorem wrapInt_eq (x : Int) (h0 : minInt ≤ x) (h1 : x ≤ maxInt) : wrapInt x = x := by
  unfold wrapInt
  unfold minInt at h0
  unfold maxInt at h1
  omega

theorem roundNE_zero (neg : Bool) (e : Int) :
    roundNE neg 0 e = .fin neg 0 (roundExp 0 e) := by
  unfold roundNE
  rw [roundMant_zero]
  simp [packF64]

/-- The clamped ratio is NaN, plus infinity, a non-negative finite datum, or a
negative zero. -/
theorem completedRatio_cases (r : Float64) :
    completedRatio r = .nan ∨ completedRatio r = .inf false ∨
    (∃ m e, completedRatio r = .fin false m e) ∨ (∃ e, completedRatio r = .fin true 0 e) := by
  unfold completedRatio
  cases r with
  | nan => left; rfl
  | inf neg =>
    cases neg
    · right; left; rfl
    · right; right; left; exact ⟨0, 0, rfl⟩
  | fin n m e =>
    rw [f64Lt_zero_fin]
    cases n
    · right; right; left; exact ⟨m, e, by simp⟩
    · by_cases hm : m = 0
      · subst hm
        right; right; right; exact ⟨e, by simp⟩
      · right; right; left; exact ⟨0, 0, by simp [hm, f64Zero]⟩

/-- The counts of `ProgressFormat` when `int` represents the scaled ratio. -/
theorem counts_of_trunc (R : Runtime) (s : Simple) (r : Float64) (c : Int)
    (hw0 : 0 ≤ s.width) (hw1 : s.width ≤ maxInt)
    (hc : f64Trunc (f64Mul (completedRatio r) (f64OfInt s.width)) = some c) :
    completedCount R s r = c ∧ 0 ≤ c ∧ c ≤ maxInt ∧ todoCount R s r = max 0 (s.width - c) := by
  have hcc : completedCount R s r = c := by
    unfold completedCount intOfF64
    rw [hc]
  obtain ⟨M, E, hW, _, _, _, _⟩ := f64OfInt_fin s.width hw0 hw1
  have hrange : 0 ≤ c ∧ c ≤ maxInt := by
    rw [hW] at hc
    rcases completedRatio_cases r with h | h | ⟨m, e, h⟩ | ⟨e, h⟩
    · rw [h] at hc; simp [f64Mul, f64Trunc] at hc
    · rw [h] at hc
      simp only [f64Mul] at hc
      split_ifs at hc <;> simp [f64Trunc] at hc
    · rw [h] at hc
      simp only [f64Mul, Bool.xor_false] at hc
      cases hX : roundNE false (m * M) (e + E) with
      | nan => rw [hX] at hc; simp [f64Trunc] at hc
      | inf n => rw [hX] at hc; simp [f64Trunc] at hc
      | fin n' m' e' =>
        rw [hX] at hc
        have hn : n' = false := (roundNE_fin _ _ _ _ _ _ hX).1
        subst hn
        simp only [f64Trunc, signedMant_false] at hc
        split_ifs at hc with hr
        injection hc with hc
        omega
    · rw [h] at hc
      simp only [f64Mul, Bool.xor_false, Nat.zero_mul] at hc
      rw [roundNE_zero] at hc
      simp only [f64Trunc, signedMant_true] at hc
      have : truncMag 0 (roundExp 0 (e + E)) = 0 := by simp [truncMag]
      rw [this] at hc
      split_ifs at hc with hr
      injection hc with hc
      unfold maxInt
      omega
  refine ⟨hcc, hrange.1, hrange.2, ?_⟩
  unfold todoCount
  rw [hcc, wrapInt_eq _ (by unfold minInt; unfold maxInt at hw1 hrange; omega)
    (by unfold maxInt at hw1 hrange ⊢; omega)]
  simp only
  split_ifs <;> omega

theorem dyVal_one_eq : dyVal 1 0 = dyVal (2 ^ 52) (-52) := by
  have := dyVal_shift 1 52 (-52)
  rw [show (-52 : Int) + ((52 : Nat) : Int) = 0 from rfl] at this
  rw [← this]; norm_num

/-- A float64 above 1 is at least `1 + 2^-52`. -/
theorem gt_one_ge (m : Nat) (e : Int) (hm : m < 2 ^ 53) (h : dyVal 1 0 < dyVal m e) :
    dyVal (2 ^ 52 + 1) (-52) ≤ dyVal m e := by
  rw [dyVal_one_eq] at h
  by_cases he : -52 ≤ e
  · obtain ⟨k, hk⟩ : ∃ k : Nat, e = -52 + k := ⟨(e + 52).toNat, by omega⟩
    rw [hk] at h ⊢
    rw [dyVal_lt_iff] at h
    rw [dyVal_le_iff]
    omega
  · exfalso
    obtain ⟨k, hk⟩ : ∃ k : Nat, e + (k + 1 : Nat) = -52 := ⟨(-52 - e - 1).toNat, by omega⟩
    rw [← hk, dyVal_lt_iff'] at h
    have h1 : 2 ^ 52 * 2 ^ 1 ≤ 2 ^ 52 * 2 ^ (k + 1) :=
      Nat.mul_le_mul_left _ (Nat.pow_le_pow_right (by norm_num) (by omega))
    omega

/-- Above the integer `n` there is a float64 that a ratio above 1 times
`float64(n)` reaches. -/
theorem ofInt_upper_neighbour (n m : Nat) (e : Int) (hm : m < 2 ^ 53)
    (hgt : dyVal 1 0 < dyVal m e) :
    ∃ my ey, my < 2 ^ 53 ∧ -1074 ≤ ey ∧ dyVal n 0 ≤ dyVal my ey ∧
      dyVal my ey ≤ dyVal m e * dyVal (roundMant n 0) (roundExp n 0) := by
  have hone : (1 : ℚ) ≤ dyVal m e := by rw [← dyVal_one_zero]; exact hgt.le
  by_cases hn : n < 2 ^ 53
  · obtain ⟨h1, h2⟩ := roundCore_small n hn
    rw [h1, h2]
    exact ⟨n, 0, hn, by norm_num, le_rfl, le_mul_of_one_le_left (dyVal_nonneg _ _) hone⟩
  · have hb : 53 < bitLen n := lt_bitLen_of_le n 53 (by omega)
    obtain ⟨S, hS⟩ : ∃ S : Nat, bitLen n = S + 54 := ⟨bitLen n - 54, by omega⟩
    have hq : roundQuantum n 0 = ((S + 1 : Nat) : Int) := by
      unfold roundQuantum; rw [hS]; push_cast; omega
    have hqn : ¬ (roundQuantum n 0 ≤ 0) := by rw [hq]; push_cast; omega
    have hM : roundMant n 0 = roundShift n (S + 1) := by
      unfold roundMant; rw [if_neg hqn, hq, Int.toNat_ofNat]
    have hE : roundExp n 0 = 0 + ((S + 1 : Nat) : Int) := by
      unfold roundExp; rw [if_neg hqn, hq]
    have hn0 : n ≠ 0 := by omega
    have hlo := two_pow_bitLen_le n hn0
    have hhi := lt_two_pow_bitLen n
    rw [hS] at hlo hhi
    have hlo' : 2 ^ 52 * 2 ^ (S + 1) ≤ n := by
      rw [← pow_add]
      have : S + 54 - 1 = 52 + (S + 1) := by omega
      rw [this] at hlo; exact hlo
    have hhi' : n < 2 ^ 53 * 2 ^ (S + 1) := by
      rw [← pow_add]
      have : S + 54 = 53 + (S + 1) := by omega
      rw [this] at hhi; exact hhi
    have hM0lo : 2 ^ 52 ≤ roundShift n (S + 1) := le_roundShift n (S + 1) _ hlo'
    have hM0hi : roundShift n (S + 1) ≤ 2 ^ 53 := by rw [← hM]; exact roundMant_le n 0
    have hsucc := lt_roundShift_succ n (S + 1)
    rw [hM, hE]
    set M0 := roundShift n (S + 1) with hM0
    have hV : dyVal M0 (0 + ((S + 1 : Nat) : Int)) ≤
        dyVal m e * dyVal M0 (0 + ((S + 1 : Nat) : Int)) :=
      le_mul_of_one_le_left (dyVal_nonneg _ _) hone
    by_cases hc : M0 = 2 ^ 53
    · refine ⟨2 ^ 52, 0 + ((S + 1 : Nat) : Int) + 1, by norm_num, by omega, ?_, ?_⟩
      · rw [dyVal_carry, dyVal_le_iff]; omega
      · rw [dyVal_carry, ← hc]; exact hV
    · have hlt : M0 < 2 ^ 53 := by omega
      -- the value `(M0 + 1)·2^(S+1)` lies between `n` and the product
      have hge : dyVal n 0 ≤ dyVal (M0 + 1) (0 + ((S + 1 : Nat) : Int)) := by
        rw [dyVal_le_iff]; omega
      have hle : dyVal (M0 + 1) (0 + ((S + 1 : Nat) : Int)) ≤
          dyVal m e * dyVal M0 (0 + ((S + 1 : Nat) : Int)) := by
        have h1 := gt_one_ge m e hm hgt
        have h2 : dyVal (2 ^ 52 + 1) (-52) * dyVal M0 (0 + ((S + 1 : Nat) : Int)) ≤
            dyVal m e * dyVal M0 (0 + ((S + 1 : Nat) : Int)) :=
          mul_le_mul_of_nonneg_right h1 (dyVal_nonneg _ _)
        refine le_trans ?_ h2
        rw [← dyVal_mul]
        have h3 : dyVal (M0 + 1) (0 + ((S + 1 : Nat) : Int)) =
            dyVal ((M0 + 1) * 2 ^ 52) (-52 + (0 + ((S + 1 : Nat) : Int))) := by
          rw [dyVal_shift]
          congr 1
          push_cast; ring
        rw [h3]
        apply dyVal_mono
        have : (M0 + 1) * 2 ^ 52 = M0 * 2 ^ 52 + 2 ^ 52 := by ring
        have : (2 ^ 52 + 1) * M0 = M0 * 2 ^ 52 + M0 := by ring
        omega
      by_cases hc2 : M0 + 1 = 2 ^ 53
      · refine ⟨2 ^ 52, 0 + ((S + 1 : Nat) : Int) + 1, by norm_num, by omega, ?_, ?_⟩
        · rw [dyVal_carry, ← hc2]; exact hge
        · rw [dyVal_carry, ← hc2]; exact hle
      · exact ⟨M0 + 1, 0 + ((S + 1 : Nat) : Int), by omega, by omega, hge, hle⟩

/-! ## lemmas on the formatter and the tasks -/

/-- What `ProgressFormat` returns for a named theme when `int` represents the
scaled ratio and both repeated texts fit into a string. -/
theorem ProgressFormat_named (R : Runtime) (w : Int) (theme : SimpleTheme) (dc tc : Color)
    (r : Float64) (c : Int) (hw0 : 0 ≤ w) (hw1 : w ≤ maxInt) (ht : theme ∈ namedThemes)
    (hc : f64Trunc (f64Mul (completedRatio r) (f64OfInt w)) = some c)
    (hl1 : 3 * c ≤ maxInt) (hl2 : 3 * max 0 (w - c) ≤ maxInt) :
    ProgressFormat R (NewSimpleWithTheme w theme dc tc) r =
      .ok (glyph theme leftCapPosition
        ++ R.sprint dc (repeatGlyph (glyph theme fullPosition) c)
        ++ R.sprint tc (repeatGlyph (glyph theme fullPosition) (max 0 (w - c)))
        ++ glyph theme rightCapPosition, none) := by
  obtain ⟨g0, g1, g2, g3, hl, hlen, hg1, hg2, hg3⟩ := lookup_named theme ht
  obtain ⟨hcc, hc0, _, htc⟩ :=
    counts_of_trunc R (NewSimpleWithTheme w theme dc tc) r c hw0 hw1 hc
  have h := ProgressFormat_eq R (NewSimpleWithTheme w theme dc tc) r g0 g1 g2 g3 hl
    (by rw [hcc]; exact hc0) (by rw [hcc, hlen]; push_cast; exact hl1)
    (by rw [htc, hlen]; push_cast; exact hl2)
  rw [h, hcc, htc, hg1, hg2, hg3]
  rfl

/-- Below `2^53` the conversion `float64(w)` is the integer itself. -/
theorem f64OfInt_small (w : Int) (h0 : 0 ≤ w) (h1 : w < 2 ^ 53) :
    f64OfInt w = .fin false w.natAbs 0 := by
  have hn : w.natAbs < 2 ^ 53 := by omega
  have hneg : decide (w < 0) = false := by simp; omega
  obtain ⟨c1, c2⟩ := roundCore_small w.natAbs hn
  have hb := bitLen_le_of_lt w.natAbs 53 hn
  unfold f64OfInt roundNE
  rw [hneg, c1, c2]
  unfold packF64
  have hne : w.natAbs ≠ 2 ^ 53 := by omega
  simp only [hne, if_false]
  rw [if_neg]
  rintro ⟨_, h⟩
  omega

/-- Widths up to `2^53` are not changed by the conversion to float64 and back. -/
theorem f64OfInt_trunc_small (w : Int) (h0 : 0 ≤ w) (h1 : w ≤ 2 ^ 53) :
    f64Trunc (f64OfInt w) = some w := by
  by_cases h : w < 2 ^ 53
  · rw [f64OfInt_small w h0 h]
    simp only [f64Trunc, signedMant_false, truncMag_nat]
    rw [if_pos (by unfold minInt maxInt; omega)]
    congr 1
    omega
  · have : w = 2 ^ 53 := by omega
    subst this
    decide

/-- The integer part of the float64 product is the floor of the exact product, or
one more, as long as these are below `2^53`. -/
theorem trunc_near_floor (w : Int) (m : Nat) (e : Int) (c : Int) (h0 : 0 ≤ w)
    (h1 : w < 2 ^ 53) (hc : f64Trunc (f64Mul (.fin false m e) (f64OfInt w)) = some c)
    (hK : ⌊dyVal m e * (w : ℚ)⌋ + 1 < 2 ^ 53) :
    ⌊dyVal m e * (w : ℚ)⌋ ≤ c ∧ c ≤ ⌊dyVal m e * (w : ℚ)⌋ + 1 := by
  rw [f64OfInt_small w h0 h1] at hc
  have hc2 : f64Trunc (roundNE false (m * w.natAbs) (e + 0)) = some c := hc
  have hwq : (w : ℚ) = dyVal w.natAbs 0 := by
    unfold dyVal
    rw [zpow_zero, mul_one]
    have h := Int.natAbs_of_nonneg h0
    calc (w : ℚ) = (((w.natAbs : Int)) : ℚ) := by rw [h]
      _ = (w.natAbs : ℚ) := Int.cast_natCast _
  have hx : dyVal (m * w.natAbs) (e + 0) = dyVal m e * (w : ℚ) := by
    rw [dyVal_mul, hwq]
  have hx0 : 0 ≤ dyVal m e * (w : ℚ) := by rw [← hx]; exact dyVal_nonneg _ _
  have hK0 : 0 ≤ ⌊dyVal m e * (w : ℚ)⌋ := Int.floor_nonneg.2 hx0
  obtain ⟨K, hKn⟩ : ∃ K : Nat, ⌊dyVal m e * (w : ℚ)⌋ = (K : Int) :=
    ⟨⌊dyVal m e * (w : ℚ)⌋.toNat, by omega⟩
  rw [hKn] at hK ⊢
  have hlo : dyVal K 0 ≤ dyVal (m * w.natAbs) (e + 0) := by
    rw [hx]
    have := Int.floor_le (dyVal m e * (w : ℚ))
    rw [hKn] at this
    simpa [dyVal] using this
  have hhi : dyVal (m * w.natAbs) (e + 0) ≤ dyVal (K + 1) 0 := by
    rw [hx]
    have := (Int.lt_floor_add_one (dyVal m e * (w : ℚ))).le
    rw [hKn] at this
    simpa [dyVal] using this
  cases hX : roundNE false (m * w.natAbs) (e + 0) with
  | nan => rw [hX] at hc2; simp [f64Trunc] at hc2
  | inf n => rw [hX] at hc2; simp [f64Trunc] at hc2
  | fin n' m' e' =>
    rw [hX] at hc2
    have hn : n' = false := (roundNE_fin _ _ _ _ _ _ hX).1
    subst hn
    simp only [f64Trunc, signedMant_false] at hc2
    split_ifs at hc2
    injection hc2 with hc2
    have h5 := roundNE_fin_ge _ _ _ _ _ _ hX K 0 (by omega) (by norm_num) hlo
    have h6 := roundNE_fin_le _ _ _ _ _ _ hX (K + 1) 0 (by omega) (by norm_num) hhi
    have h7 : K ≤ truncMag m' e' := (le_truncMag_iff _ _ _).2 h5
    have h8 : truncMag m' e' ≤ K + 1 := by
      have := truncMag_mono _ _ _ _ h6
      rw [truncMag_nat] at this
      exact this
    omega

/-- The text that `formatFn` of `downloadProgress` writes is never the "Error:"
text: it is the title template with the bar and the stage label. -/
theorem downloadFormatFn_text (R : Runtime) (formatter : Simple) (spinner : Spinner)
    (stage : String) (q : Float64) (text : String) (sp : Spinner)
    (h : downloadFormatFn R formatter spinner stage q = .ok (text, sp)) :
    ∃ progStr, ProgressFormat R formatter q = .ok (progStr, none)
      ∧ text = statusTitle (R.sprint Magenta spinner.Next.1)
          (R.sprint downloadColor "Download progress")
        ++ progStr ++ " " ++ R.sprint auxInfoFormat ("[" ++ stage ++ "]") := by
  unfold downloadFormatFn at h
  cases hp : ProgressFormat R formatter q with
  | error f => rw [hp] at h; cases h
  | ok res =>
    obtain ⟨progStr, err⟩ := res
    have herr := ProgressFormat_err R formatter q progStr err hp
    subst herr
    rw [hp] at h
    refine ⟨progStr, rfl, ?_⟩
    simp only [bind, Except.bind, pure, Except.pure] at h
    injection h with h
    injection h with h1 _
    exact h1.symm

theorem f64Le_zero_fin (n : Bool) (m : Nat) (e : Int) :
    f64Le f64Zero (.fin n m e) = !(f64Lt (.fin n m e) f64Zero) := rfl

theorem f64Le_fin_one (n : Bool) (m : Nat) (e : Int) :
    f64Le (.fin n m e) f64One = !(f64Lt f64One (.fin n m e)) := rfl

/-- The bar width before the cap: a quarter of the terminal width, rounded down,
and at least `2^51` (within `int`) from `2^53` on, where `float64(t)` may round. -/
theorem quarter_conv (R : Runtime) (t : Int) (h0 : 0 ≤ t) (h1 : t ≤ maxInt) :
    intOfF64 R (f64Mul f64Quarter (f64OfInt t)) = t / 4 ∨
    (2 ^ 53 ≤ t ∧ 2 ^ 51 ≤ intOfF64 R (f64Mul f64Quarter (f64OfInt t))) := by
  obtain ⟨M, E, hW, hM, hE, hVal, hVlt⟩ := f64OfInt_fin t h0 h1
  rw [hW]
  have hmul : f64Mul f64Quarter (.fin false M E) = roundNE false (1 * M) (-2 + E) := rfl
  rw [hmul]
  have hP : dyVal (1 * M) (-2 + E) = dyVal 1 (-2) * dyVal M E := dyVal_mul _ _ _ _
  have hmax : t.natAbs ≤ 2 ^ 63 := by unfold maxInt at h1; omega
  have hup : dyVal M E ≤ dyVal (2 ^ 52) 11 := by
    rw [hVal]
    apply roundCore_le _ _ _ _ (by norm_num) (by norm_num)
    rw [dyVal_two63]
    exact dyVal_mono _ _ _ hmax
  have hPup : dyVal (1 * M) (-2 + E) ≤ dyVal (2 ^ 52) 9 := by
    rw [hP]
    have : dyVal (2 ^ 52) 9 = dyVal 1 (-2) * dyVal (2 ^ 52) 11 := by
      rw [← dyVal_mul]; norm_num
    rw [this]
    exact mul_le_mul_of_nonneg_left hup (dyVal_nonneg _ _)
  have h9 : dyVal (2 ^ 52) 9 < dyVal 1 1024 := by
    have h := dyVal_lt_iff (2 ^ 52) 1 1015 9
    rw [show (9 : Int) + (1015 : Nat) = 1024 from rfl] at h
    rw [h]
    have : (2 : Nat) ^ 52 < 2 ^ 1015 := Nat.pow_lt_pow_right (by norm_num) (by norm_num)
    simpa using this
  obtain ⟨m', e', hX⟩ := roundNE_isFin false (1 * M) (-2 + E) (2 ^ 52) 9 (by norm_num)
    (by norm_num) h9 hPup
  have hXup := roundNE_fin_le _ _ _ _ _ _ hX (2 ^ 52) 9 (by norm_num) (by norm_num) hPup
  have hTup : truncMag m' e' ≤ 2 ^ 61 := by
    have := truncMag_mono _ _ _ _ hXup
    have h2 : truncMag (2 ^ 52) 9 = 2 ^ 61 := by decide
    omega
  have hconv : intOfF64 R (roundNE false (1 * M) (-2 + E)) = (truncMag m' e' : Int) := by
    rw [hX]
    unfold intOfF64
    simp only [f64Trunc, signedMant_false]
    rw [if_pos]
    unfold minInt maxInt
    omega
  rw [hconv]
  by_cases hsmall : t.natAbs < 2 ^ 53
  · left
    obtain ⟨c1, c2⟩ := roundCore_small t.natAbs hsmall
    rw [c1, c2] at hVal
    have hPe : dyVal (1 * M) (-2 + E) = dyVal t.natAbs (-2) := by
      rw [hP, hVal, ← dyVal_mul]; norm_num
    have hle := roundNE_fin_le _ _ _ _ _ _ hX t.natAbs (-2) hsmall (by norm_num) hPe.le
    have hge := roundNE_fin_ge _ _ _ _ _ _ hX t.natAbs (-2) hsmall (by norm_num) hPe.ge
    have heq := truncMag_congr _ _ _ _ (le_antisymm hle hge)
    have h4 : truncMag t.natAbs (-2) = t.natAbs / 4 := by
      unfold truncMag; rw [if_neg (by norm_num)]; rfl
    rw [heq, h4]
    omega
  · right
    have hlo : dyVal (2 ^ 52) 1 ≤ dyVal M E := by
      rw [hVal]
      apply le_roundCore _ _ _ _ (by norm_num) (by norm_num)
      have : dyVal (2 ^ 52) 1 = dyVal (2 ^ 53) 0 := by
        have := dyVal_carry 0
        rw [zero_add] at this
        exact this
      rw [this]
      exact dyVal_mono _ _ _ (by omega)
    have hPlo : dyVal (2 ^ 51) 0 ≤ dyVal (1 * M) (-2 + E) := by
      rw [hP]
      have : dyVal (2 ^ 51) 0 = dyVal 1 (-2) * dyVal (2 ^ 52) 1 := by
        rw [← dyVal_mul]
        have h := dyVal_shift (2 ^ 51) 1 (-1)
        rw [show (-1 : Int) + ((1 : Nat) : Int) = 0 from rfl] at h
        rw [← h, show (-2 : Int) + 1 = -1 from rfl]
        norm_num
      rw [this]
      exact mul_le_mul_of_nonneg_left hlo (dyVal_nonneg _ _)
    have hXlo := roundNE_fin_ge _ _ _ _ _ _ hX (2 ^ 51) 0 (by norm_num) (by norm_num) hPlo
    have := (le_truncMag_iff (2 ^ 51) m' e').2 hXlo
    constructor
    · omega
    · exact_mod_cast this

theorem scanFormatFn_eq (R : Runtime) (glyphs : List String) (v : Int) (k : Nat)
    (L : List String) :
    scanFormatFn R ⟨v, ⟨glyphs, k % glyphs.length⟩, L⟩ (k : Int) =
      ⟨v, ⟨glyphs, (k + 1) % glyphs.length⟩, L ++ [runningLine R glyphs k]⟩ := by
  simp only [scanFormatFn, Spinner.Next, runningLine, Nat.mod_add_mod]

/-- The loop of `scanningImage`, started at `v`, shows `v, …, 549` and stops at 550. -/
theorem scanLoopN_spec (R : Runtime) (glyphs : List String) :
    ∀ (n v : Nat) (L : List String), v + n = 550 →
      scanLoopN R n ⟨(v : Int), ⟨glyphs, v % glyphs.length⟩, L⟩ =
        ⟨550, ⟨glyphs, 550 % glyphs.length⟩,
          L ++ (List.range' v n).map (runningLine R glyphs)⟩ := by
  intro n
  induction n with
  | zero =>
    intro v L h
    have hv : v = 550 := by omega
    subst hv
    simp [scanLoopN]
  | succ k ih =>
    intro v L h
    have hlt : ((v : Int) < 550) := by omega
    simp only [scanLoopN, hlt, if_true]
    rw [scanFormatFn_eq]
    have := ih (v + 1) (L ++ [runningLine R glyphs v]) (by omega)
    simp only [Nat.cast_add, Nat.cast_one] at this
    rw [this]
    simp [List.range'_succ]

theorem scanLoop_spec (R : Runtime) (glyphs : List String) (v : Nat) (L : List String)
    (h : v ≤ 550) :
    scanLoop R ⟨(v : Int), ⟨glyphs, v % glyphs.length⟩, L⟩ =
      ⟨550, ⟨glyphs, 550 % glyphs.length⟩,
        L ++ (List.range' v (550 - v)).map (runningLine R glyphs)⟩ := by
  unfold scanLoop
  have : (550 - (v : Int)).toNat = 550 - v := by omega
  simp only [this]
  exact scanLoopN_spec R glyphs (550 - v) v L (by omega)

/-- The texts that the goroutine of `scanningImage` writes, and its final counter. -/
theorem scanningImageTask_spec (R : Runtime) (t : Int) (glyphs : List String) :
    (scanningImageTask R t glyphs).line =
      (List.range 550).map (runningLine R glyphs) ++ [completionLine R 550]
    ∧ (scanningImageTask R t glyphs).v = 550 := by
  have h0 := scanFormatFn_eq R glyphs 0 0 []
  have h1 := scanLoop_spec R glyphs 1 ([] ++ [runningLine R glyphs 0]) (by norm_num)
  have hr : List.range 550 = 0 :: List.range' 1 549 := by
    rw [List.range_eq_range', List.range'_succ]
  unfold scanningImageTask
  simp only [setupSpinner, NewSpinner]
  simp only [Nat.zero_mod, Nat.cast_zero, Nat.zero_add, Nat.cast_one] at h0 h1
  rw [h0]
  simp only
  rw [h1, hr]
  simp [completionLine]

/-! ## the claims -/

/-- C1 (as amended): for a formatter built by `NewSimpleWithTheme` with a width
`0 ≤ w` and one of the six named themes, and for every ratio whose float64 product
with `float64(w)`, after the clamp of a negative ratio to `0`, has an integer part
`c` that `int` represents (the repeated glyph texts fitting into a string),
`ProgressFormat` returns exactly leftCap ++ colorize(full × c, doneColor) ++
colorize(full × max(0, w - c), todoColor) ++ rightCap with a nil error; the glyphs
are those at positions 2, 1 and 3 of the theme, and the glyph at position 0 has no
influence on the result.  The count `c` is the floor of the exact product
max(r, 0) · w or one more than it, as long as the width and these counts are below
`2^53`. -/
theorem C1_progressFormat_renders (R : Runtime) (w : Int) (theme : SimpleTheme)
    (dc tc : Color) (r : Float64) (c : Int) (hw0 : 0 ≤ w) (hw1 : w ≤ maxInt)
    (ht : theme ∈ namedThemes)
    (hc : f64Trunc (f64Mul (completedRatio r) (f64OfInt w)) = some c)
    (hl1 : 3 * c ≤ maxInt) (hl2 : 3 * max 0 (w - c) ≤ maxInt) :
    ProgressFormat R (NewSimpleWithTheme w theme dc tc) r =
      .ok (glyph theme leftCapPosition
        ++ R.sprint dc (repeatGlyph (glyph theme fullPosition) c)
        ++ R.sprint tc (repeatGlyph (glyph theme fullPosition) (max 0 (w - c)))
        ++ glyph theme rightCapPosition, none)
    ∧ (∀ g : String,
        ProgressFormat R ⟨w, g :: (lookup theme).tail, dc, tc⟩ r
        = ProgressFormat R (NewSimpleWithTheme w theme dc tc) r)
    ∧ (∀ (m : Nat) (e : Int), completedRatio r = .fin false m e → w < 2 ^ 53 →
        ⌊dyVal m e * (w : ℚ)⌋ + 1 < 2 ^ 53 →
        ⌊dyVal m e * (w : ℚ)⌋ ≤ c ∧ c ≤ ⌊dyVal m e * (w : ℚ)⌋ + 1) := by
  refine ⟨ProgressFormat_named R w theme dc tc r c hw0 hw1 ht hc hl1 hl2, ?_, ?_⟩
  · intro g
    obtain ⟨g0, g1, g2, g3, hl, hlen, _⟩ := lookup_named theme ht
    obtain ⟨hcc, hc0, _, htc⟩ :=
      counts_of_trunc R (NewSimpleWithTheme w theme dc tc) r c hw0 hw1 hc
    have hcs : (⟨w, g :: (lookup theme).tail, dc, tc⟩ : Simple).charSet = [g, g1, g2, g3] := by
      show g :: (lookup theme).tail = _
      rw [hl]; rfl
    have k1 : completedCount R ⟨w, g :: (lookup theme).tail, dc, tc⟩ r = c := hcc
    have k2 : todoCount R ⟨w, g :: (lookup theme).tail, dc, tc⟩ r = max 0 (w - c) := htc
    have a1 := ProgressFormat_eq R ⟨w, g :: (lookup theme).tail, dc, tc⟩ r
      g g1 g2 g3 hcs (by rw [k1]; exact hc0) (by rw [k1, hlen]; push_cast; exact hl1)
      (by rw [k2, hlen]; push_cast; exact hl2)
    rw [k1, k2] at a1
    have a2 := ProgressFormat_eq R (NewSimpleWithTheme w theme dc tc) r g0 g1 g2 g3 hl
      (by rw [hcc]; exact hc0) (by rw [hcc, hlen]; push_cast; exact hl1)
      (by rw [htc, hlen]; push_cast; exact hl2)
    rw [hcc, htc] at a2
    rw [a1, a2]
    rfl
  · intro m e hm hw53 hK
    rw [hm] at hc
    exact trunc_near_floor w m e c hw0 hw53 hc hK

/-- C1, witness: width 10, LiteTheme, ratio 0.5 on amd64. -/
theorem C1_progressFormat_renders_witness :
    ProgressFormat amd64 (NewSimpleWithTheme 10 LiteTheme ColorCompleted ColorTodo)
        (.fin false 1 (-1)) =
      .ok ("├" ++ tagSprint ColorCompleted "─────" ++ tagSprint ColorTodo "─────" ++ "┤", none) :=
  (C1_progressFormat_renders amd64 10 LiteTheme ColorCompleted ColorTodo (.fin false 1 (-1)) 5
    (by decide) (by decide) (by decide) (by decide) (by decide) (by decide)).1

/-- C1, counterexample.  (a) The ratio is the float64 nearest to 1/3 and the width
is 3: the exact product is below 1, so floor(max(r, 0) * w) is 0, but the float64
product rounds to 1 and the code colours one glyph as completed.  (b) The ratio is
2^60 and the width is 50: `int` does not represent the product, and the call panics
on amd64 and on arm64 instead of returning a text. -/
theorem C1_counterexample :
    (Float64.valid (.fin false 6004799503160661 (-54)) = true
      ∧ ⌊dyVal 6004799503160661 (-54) * 3⌋ = 0
      ∧ completedCount amd64 (NewSimpleWithTheme 3 LiteTheme ColorCompleted ColorTodo)
          (.fin false 6004799503160661 (-54)) = 1
      ∧ ProgressFormat amd64 (NewSimpleWithTheme 3 LiteTheme ColorCompleted ColorTodo)
          (.fin false 6004799503160661 (-54))
        = .ok ("├" ++ tagSprint ColorCompleted "─" ++ tagSprint ColorTodo "──" ++ "┤", none))
    ∧ (Float64.valid (.fin false 1 60) = true
      ∧ ProgressFormat amd64 (NewSimpleWithTheme 50 LiteTheme ColorCompleted ColorTodo)
          (.fin false 1 60) = .error .negativeRepeatCount
      ∧ ProgressFormat arm64 (NewSimpleWithTheme 50 LiteTheme ColorCompleted ColorTodo)
          (.fin false 1 60) = .error .repeatOverflow) := by
  refine ⟨⟨by decide, ?_, by decide, by decide⟩, by decide, by decide, by decide⟩
  rw [Int.floor_eq_iff]
  unfold dyVal
  constructor <;> norm_num [zpow_neg]

/-- C2 (as amended): for every width `0 ≤ w` and every float64 ratio `r > 1` whose
float64 product with `float64(w)` has an integer part `c` that `int` represents,
todoCount is 0 and completedCount is `c`, which is at least `w`; it is not capped
at `w`, and the bar holds `c` glyphs between its caps. -/
theorem C2_ratio_above_one (R : Runtime) (w : Int) (theme : SimpleTheme) (dc tc : Color)
    (r : Float64) (c : Int) (hw0 : 0 ≤ w) (hw1 : w ≤ maxInt) (hv : r.valid = true)
    (hr : f64Lt f64One r = true)
    (hc : f64Trunc (f64Mul (completedRatio r) (f64OfInt w)) = some c) :
    todoCount R (NewSimpleWithTheme w theme dc tc) r = 0
    ∧ completedCount R (NewSimpleWithTheme w theme dc tc) r = c
    ∧ w ≤ c
    ∧ (theme ∈ namedThemes → 3 * c ≤ maxInt →
        ProgressFormat R (NewSimpleWithTheme w theme dc tc) r =
          .ok (glyph theme leftCapPosition
            ++ R.sprint dc (repeatGlyph (glyph theme fullPosition) c)
            ++ R.sprint tc "" ++ glyph theme rightCapPosition, none)) := by
  suffices hwc : w ≤ c by
    obtain ⟨hcc, _, _, htc⟩ :=
      counts_of_trunc R (NewSimpleWithTheme w theme dc tc) r c hw0 hw1 hc
    have hmax : max 0 (w - c) = 0 := max_eq_left (by omega)
    refine ⟨?_, hcc, hwc, ?_⟩
    · rw [htc]
      exact hmax
    · intro ht hl
      have h := ProgressFormat_named R w theme dc tc r c hw0 hw1 ht hc hl
        (by rw [hmax]; decide)
      rw [h, hmax]
      rfl
  obtain ⟨M, E, hW, hM, hE, hVal, _⟩ := f64OfInt_fin w hw0 hw1
  cases r with
  | nan => exact absurd hr (by decide)
  | inf neg =>
    cases neg
    · rw [hW] at hc
      have : completedRatio (.inf false) = .inf false := by decide
      rw [this] at hc
      simp only [f64Mul] at hc
      split_ifs at hc <;> simp [f64Trunc] at hc
    · exact absurd hr (by decide)
  | fin n m e =>
    cases n with
    | true =>
      exfalso
      have hx : dyadicLt (signedMant false 1) 0 (signedMant true m) e = true := hr
      unfold dyadicLt at hx
      rw [signedMant_false, signedMant_true, decide_eq_true_iff] at hx
      have h1 : (0 : Int) < 2 ^ (0 - min 0 e).toNat := by positivity
      have h2 : (0 : Int) ≤ 2 ^ (e - min 0 e).toNat := by positivity
      have h3 : (0 : Int) ≤ (m : Int) * 2 ^ (e - min 0 e).toNat :=
        mul_nonneg (by omega) h2
      have h4 : ((1 : Nat) : Int) * 2 ^ (0 - min 0 e).toNat > 0 := by
        simp
      linarith
    | false =>
      have hgt : dyVal 1 0 < dyVal m e := (dyadicLt_iff 1 m 0 e).1 hr
      have hm : m < 2 ^ 53 := by
        simp only [Float64.valid, Bool.and_eq_true, decide_eq_true_eq] at hv
        exact hv.1.1
      have hcr : completedRatio (.fin false m e) = .fin false m e := by
        unfold completedRatio
        rw [f64Lt_zero_fin]
        rfl
      rw [hcr, hW] at hc
      have hc' : f64Trunc (roundNE false (m * M) (e + E)) = some c := hc
      cases hX : roundNE false (m * M) (e + E) with
      | nan => rw [hX] at hc'; simp [f64Trunc] at hc'
      | inf n => rw [hX] at hc'; simp [f64Trunc] at hc'
      | fin n' m' e' =>
        rw [hX] at hc'
        have hn : n' = false := (roundNE_fin _ _ _ _ _ _ hX).1
        subst hn
        simp only [f64Trunc, signedMant_false] at hc'
        split_ifs at hc'
        injection hc' with hc'
        obtain ⟨my, ey, hmy, hey, hlo, hhi⟩ := ofInt_upper_neighbour w.natAbs m e hm hgt
        rw [← hVal, ← dyVal_mul] at hhi
        have h5 := roundNE_fin_ge _ _ _ _ _ _ hX my ey hmy hey hhi
        have h6 : w.natAbs ≤ truncMag m' e' :=
          (le_truncMag_iff _ _ _).2 (le_trans hlo h5)
        omega

/-- C2, witness: ratio 1.5 and width 50 give completedCount 75. -/
theorem C2_ratio_above_one_witness :
    todoCount amd64 (NewSimpleWithTheme 50 LiteTheme ColorCompleted ColorTodo)
        (.fin false 3 (-1)) = 0
    ∧ completedCount amd64 (NewSimpleWithTheme 50 LiteTheme ColorCompleted ColorTodo)
        (.fin false 3 (-1)) = 75
    ∧ (50 : Int) ≤ 75 :=
  have h := C2_ratio_above_one amd64 50 LiteTheme ColorCompleted ColorTodo (.fin false 3 (-1))
    75 (by decide) (by decide) (by decide) (by decide) (by decide)
  ⟨h.1, h.2.1, h.2.2.1⟩

/-- C2, counterexample: with the ratio 2 and the width 50 the code computes
completedCount = 100, not 50, and the bar holds 100 glyphs between its caps. -/
theorem C2_counterexample :
    f64Lt f64One (.fin false 1 1) = true
    ∧ completedCount amd64 (NewSimpleWithTheme 50 LiteTheme ColorCompleted ColorTodo)
        (.fin false 1 1) = 100
    ∧ completedCount amd64 (NewSimpleWithTheme 50 LiteTheme ColorCompleted ColorTodo)
        (.fin false 1 1) ≠ 50
    ∧ todoCount amd64 (NewSimpleWithTheme 50 LiteTheme ColorCompleted ColorTodo)
        (.fin false 1 1) = 0
    ∧ ProgressFormat amd64 (NewSimpleWithTheme 50 LiteTheme ColorCompleted ColorTodo)
        (.fin false 1 1)
      = .ok ("├" ++ tagSprint ColorCompleted (repeatGlyph "─" 100) ++ tagSprint ColorTodo ""
          ++ "┤", none) :=
  ⟨by decide, by decide, by decide, by decide,
   ProgressFormat_named amd64 50 LiteTheme ColorCompleted ColorTodo (.fin false 1 1) 100
     (by decide) (by decide) (by decide) (by decide) (by decide) (by decide)⟩

/-- C3 (as amended): for every width `0 ≤ w` that the conversion to float64 does
not increase (`int(float64(w)) ≤ w`, so every `w ≤ 2^53`) and every ratio with
`0 ≤ r ≤ 1`, the counts of `ProgressFormat` satisfy
completedCount + todoCount == w, with `0 ≤ completedCount ≤ w`. -/
theorem C3_counts_sum_to_width (R : Runtime) (w : Int) (theme : SimpleTheme) (dc tc : Color)
    (r : Float64) (t : Int) (hw0 : 0 ≤ w) (hw1 : w ≤ maxInt)
    (ht : f64Trunc (f64OfInt w) = some t) (htw : t ≤ w)
    (h0 : f64Le f64Zero r = true) (h1 : f64Le r f64One = true) :
    completedCount R (NewSimpleWithTheme w theme dc tc) r
        + todoCount R (NewSimpleWithTheme w theme dc tc) r = w
    ∧ 0 ≤ completedCount R (NewSimpleWithTheme w theme dc tc) r
    ∧ completedCount R (NewSimpleWithTheme w theme dc tc) r ≤ w := by
  obtain ⟨M, E, hW, hM, hE, _, hVlt⟩ := f64OfInt_fin w hw0 hw1
  have htM : t = (truncMag M E : Int) := by
    rw [hW] at ht
    simp only [f64Trunc, signedMant_false] at ht
    split_ifs at ht
    injection ht with ht
    exact ht.symm
  -- it suffices to bound the integer part of the product by `w`
  suffices hc : ∃ c, f64Trunc (f64Mul (completedRatio r) (f64OfInt w)) = some c ∧ c ≤ w by
    obtain ⟨c, hc, hcw⟩ := hc
    obtain ⟨hcc, hc0, _, htc⟩ :=
      counts_of_trunc R (NewSimpleWithTheme w theme dc tc) r c hw0 hw1 hc
    rw [hcc, htc]
    have : max 0 ((NewSimpleWithTheme w theme dc tc).width - c) = w - c := by
      show max 0 (w - c) = w - c
      exact max_eq_right (by omega)
    rw [this]
    exact ⟨by omega, hc0, hcw⟩
  cases r with
  | nan => exact absurd h0 (by decide)
  | inf neg => cases neg <;> first | exact absurd h0 (by decide) | exact absurd h1 (by decide)
  | fin n m e =>
    have hnl : f64Lt (.fin n m e) f64Zero = false := by
      cases hx : f64Lt (.fin n m e) f64Zero
      · rfl
      · rw [f64Le_zero_fin, hx] at h0; cases h0
    have hcr : completedRatio (.fin n m e) = .fin n m e := by
      unfold completedRatio; rw [hnl]; rfl
    rw [hcr, hW]
    cases n with
    | true =>
      have hm : m = 0 := by
        rw [f64Lt_zero_fin] at hnl
        by_contra hne
        simp [hne] at hnl
      subst hm
      refine ⟨0, ?_, hw0⟩
      show f64Trunc (roundNE (xor true false) (0 * M) (e + E)) = some 0
      rw [Nat.zero_mul, roundNE_zero]
      simp [f64Trunc, truncMag, signedMant, minInt, maxInt]
    | false =>
      have hle : dyVal m e ≤ 1 := by
        have hx : f64Lt f64One (.fin false m e) = false := by
          cases hx : f64Lt f64One (.fin false m e)
          · rfl
          · rw [f64Le_fin_one, hx] at h1; cases h1
        have hy : ¬ (dyVal 1 0 < dyVal m e) := by
          intro hlt
          have := (dyadicLt_iff 1 m 0 e).2 hlt
          have hz : f64Lt f64One (.fin false m e) = true := this
          rw [hx] at hz
          cases hz
        rw [dyVal_one_zero] at hy
        exact not_lt.1 hy
      have hP : dyVal (m * M) (e + E) ≤ dyVal M E := by
        rw [dyVal_mul]
        exact mul_le_of_le_one_left (dyVal_nonneg _ _) hle
      obtain ⟨m', e', hX⟩ := roundNE_isFin false (m * M) (e + E) M E hM hE hVlt hP
      have hXle := roundNE_fin_le _ _ _ _ _ _ hX M E hM hE hP
      have hT := truncMag_mono _ _ _ _ hXle
      refine ⟨(truncMag m' e' : Int), ?_, by omega⟩
      show f64Trunc (roundNE (xor false false) (m * M) (e + E)) = some _
      rw [show xor false false = false from rfl, hX]
      simp only [f64Trunc, signedMant_false]
      rw [if_pos]
      unfold minInt
      unfold maxInt at hw1 ⊢
      omega

/-- C3, witness: the ratio 1 and the width 50 with LiteTheme give
completedCount 50 and todoCount 0. -/
theorem C3_counts_sum_to_width_witness :
    (completedCount amd64 (NewSimpleWithTheme 50 LiteTheme ColorCompleted ColorTodo) f64One
        + todoCount amd64 (NewSimpleWithTheme 50 LiteTheme ColorCompleted ColorTodo) f64One = 50
    ∧ 0 ≤ completedCount amd64 (NewSimpleWithTheme 50 LiteTheme ColorCompleted ColorTodo) f64One
    ∧ completedCount amd64 (NewSimpleWithTheme 50 LiteTheme ColorCompleted ColorTodo) f64One
        ≤ 50)
    ∧ completedCount amd64 (NewSimpleWithTheme 50 LiteTheme ColorCompleted ColorTodo) f64One
        = 50
    ∧ todoCount amd64 (NewSimpleWithTheme 50 LiteTheme ColorCompleted ColorTodo) f64One = 0 :=
  ⟨C3_counts_sum_to_width amd64 50 LiteTheme ColorCompleted ColorTodo f64One 50
    (by decide) (by decide) (by decide) (by decide) (by decide) (by decide),
   by decide, by decide⟩

/-- C3, counterexample: the width 2^53 + 3 is not a float64; `float64(w)` is
2^53 + 4, so with the ratio 1 completedCount is `w + 1`, todoCount is 0 and the
sum is not `w`. -/
theorem C3_counterexample :
    f64Le f64Zero f64One = true ∧ f64Le f64One f64One = true
    ∧ f64OfInt 9007199254740995 = .fin false 4503599627370498 1
    ∧ completedCount amd64
        (NewSimpleWithTheme 9007199254740995 LiteTheme ColorCompleted ColorTodo) f64One
        = 9007199254740996
    ∧ todoCount amd64
        (NewSimpleWithTheme 9007199254740995 LiteTheme ColorCompleted ColorTodo) f64One = 0
    ∧ completedCount amd64
          (NewSimpleWithTheme 9007199254740995 LiteTheme ColorCompleted ColorTodo) f64One
        + todoCount amd64
          (NewSimpleWithTheme 9007199254740995 LiteTheme ColorCompleted ColorTodo) f64One
        ≠ 9007199254740995 := by
  refine ⟨by decide, by decide, by decide, by decide, by decide, by decide⟩

/-- C4: for every width `0 ≤ w`, every theme and every ratio `r < 0`,
`ProgressFormat` behaves as it does for the ratio 0: its result is the same,
completedCount is 0, todoCount is `w`, neither repeat count is negative, and for a
named theme (the repeated text fitting into a string) the result is the text
leftCap ++ colorize("", doneColor) ++ colorize(full × w, todoColor) ++ rightCap. -/
theorem C4_negative_ratio_as_zero (R : Runtime) (w : Int) (theme : SimpleTheme)
    (dc tc : Color) (r : Float64) (hw0 : 0 ≤ w) (hw1 : w ≤ maxInt)
    (hr : f64Lt r f64Zero = true) :
    ProgressFormat R (NewSimpleWithTheme w theme dc tc) r =
      ProgressFormat R (NewSimpleWithTheme w theme dc tc) f64Zero
    ∧ completedCount R (NewSimpleWithTheme w theme dc tc) r = 0
    ∧ todoCount R (NewSimpleWithTheme w theme dc tc) r = w
    ∧ 0 ≤ completedCount R (NewSimpleWithTheme w theme dc tc) r
    ∧ 0 ≤ todoCount R (NewSimpleWithTheme w theme dc tc) r
    ∧ (theme ∈ namedThemes → 3 * w ≤ maxInt →
        ProgressFormat R (NewSimpleWithTheme w theme dc tc) r =
          .ok (glyph theme leftCapPosition ++ R.sprint dc ""
            ++ R.sprint tc (repeatGlyph (glyph theme fullPosition) w)
            ++ glyph theme rightCapPosition, none)) := by
  have hz : completedRatio r = f64Zero := by unfold completedRatio; rw [hr]; rfl
  have hzz : completedRatio f64Zero = f64Zero := by decide
  obtain ⟨M, E, hW, _⟩ := f64OfInt_fin w hw0 hw1
  have hc : f64Trunc (f64Mul (completedRatio r) (f64OfInt w)) = some 0 := by
    rw [hz, hW]
    show f64Trunc (roundNE (xor false false) (0 * M) (0 + E)) = some 0
    rw [Nat.zero_mul, roundNE_zero]
    simp [f64Trunc, truncMag, signedMant, minInt, maxInt]
  obtain ⟨hcc, _, _, htc⟩ :=
    counts_of_trunc R (NewSimpleWithTheme w theme dc tc) r 0 hw0 hw1 hc
  have htc' : todoCount R (NewSimpleWithTheme w theme dc tc) r = w := by
    rw [htc]
    show max 0 (w - 0) = w
    rw [sub_zero]; exact max_eq_right hw0
  refine ⟨?_, hcc, htc', by rw [hcc], by rw [htc']; exact hw0, ?_⟩
  · have e1 : completedCount R (NewSimpleWithTheme w theme dc tc) r =
        completedCount R (NewSimpleWithTheme w theme dc tc) f64Zero := by
      unfold completedCount; rw [hz, hzz]
    have e2 : todoCount R (NewSimpleWithTheme w theme dc tc) r =
        todoCount R (NewSimpleWithTheme w theme dc tc) f64Zero := by
      unfold todoCount; rw [e1]
    unfold ProgressFormat
    rw [e1, e2]
  · intro ht hl
    have h := ProgressFormat_named R w theme dc tc r 0 hw0 hw1 ht hc (by decide)
      (by rw [sub_zero, max_eq_right hw0]; exact hl)
    rw [h, sub_zero, max_eq_right hw0]
    rfl

/-- C4, witness: width 10, LiteTheme, ratio -0.5 on amd64. -/
theorem C4_negative_ratio_as_zero_witness :
    ProgressFormat amd64 (NewSimpleWithTheme 10 LiteTheme ColorCompleted ColorTodo)
        (.fin true 1 (-1)) =
      ProgressFormat amd64 (NewSimpleWithTheme 10 LiteTheme ColorCompleted ColorTodo) f64Zero
    ∧ completedCount amd64 (NewSimpleWithTheme 10 LiteTheme ColorCompleted ColorTodo)
        (.fin true 1 (-1)) = 0
    ∧ todoCount amd64 (NewSimpleWithTheme 10 LiteTheme ColorCompleted ColorTodo)
        (.fin true 1 (-1)) = 10 :=
  have h := C4_negative_ratio_as_zero amd64 10 LiteTheme ColorCompleted ColorTodo
    (.fin true 1 (-1)) (by decide) (by decide) (by decide)
  ⟨h.1, h.2.1, h.2.2.1⟩

/-- C5, the code at the claim's input: the writes of the producer loop add one
byte for `i < 128` and two bytes from `i = 128` on, so the writer of capacity 1000
ends at consumed = 1872; the ratio is the float64 nearest to 1.872, and a bar of
width 50 has completedCount = 93 and todoCount = 0. -/
theorem C5_producer_overshoots_capacity :
    (stringOfInt 127).utf8ByteSize = 1 ∧ (stringOfInt 128).utf8ByteSize = 2
    ∧ downloadProducer = { consumed := 1872, capacity := 1000, complete := true }
    ∧ downloadProducer.ratio = .fin false 8430738502437569 (-52)
    ∧ f64Lt f64One downloadProducer.ratio = true
    ∧ completedCount amd64 (NewSimpleWithTheme 50 LiteTheme ColorCompleted ColorTodo)
        downloadProducer.ratio = 93
    ∧ todoCount amd64 (NewSimpleWithTheme 50 LiteTheme ColorCompleted ColorTodo)
        downloadProducer.ratio = 0 := by
  rw [downloadProducer_eq]
  refine ⟨by decide, by decide, rfl, by decide, by decide, by decide, by decide⟩

/-- C6, the code at the failing inputs: when `frame.New` fails, or either call of
`fr.Append`, the process ends in `log.Fatalf` after the hide-cursor sequence was
written, no deferred call runs and the show-cursor sequence is never written. -/
theorem C6_fatal_exit_leaves_cursor_hidden :
    (main ⟨true, false, false⟩).trace =
      [.print hideCursor, .frameNew, .fatal "failed to create screen object"]
    ∧ Event.print showCursor ∉ (main ⟨true, false, false⟩).trace
    ∧ (main ⟨false, true, false⟩).trace =
      [.print hideCursor, .frameNew, .wgAdd 1, .lineAppend,
       .fatal "error obtaining line from append"]
    ∧ Event.print showCursor ∉ (main ⟨false, true, false⟩).trace
    ∧ (main ⟨false, false, true⟩).trace =
      [.print hideCursor, .frameNew, .wgAdd 1, .lineAppend, .termSize,
       .spawn "scanningImage", .wgAdd 1, .lineAppend,
       .fatal "error obtaining line from append"]
    ∧ Event.print showCursor ∉ (main ⟨false, false, true⟩).trace := by
  refine ⟨by decide, by decide, by decide, by decide, by decide, by decide⟩

/-- C7: when frame construction and both `Append` calls succeed, the effects of
`main` are, in this order: write hide-cursor, construct the Frame, scanningImage
(register on the wait group, obtain a line, start its goroutine), downloadProgress
(register, obtain a line, start its two goroutines), then the deferred calls in
last-in-first-out order: wait on the wait group, close the Frame, and at last
write show-cursor. -/
theorem C7_main_normal_path :
    main ⟨false, false, false⟩ =
      { trace := [.print hideCursor, .frameNew,
                  .wgAdd 1, .lineAppend, .termSize, .spawn "scanningImage",
                  .wgAdd 1, .lineAppend, .termSize, .spawn "downloadProgress producer",
                  .spawn "downloadProgress consumer",
                  .wgWait, .frClose, .frameClose, .print showCursor],
        deferred := [], exited := false }
    ∧ hideCursor = "\x1b[?25l" ∧ showCursor = "\x1b[?25h" := by
  refine ⟨by decide, by decide, by decide⟩

/-- C8: for every terminal width `0 ≤ t`, the formatter built by `setupSpinner` is
the LiteTheme formatter of bar width min(50, floor(t / 4)); the width never exceeds
`maxBarWidth = 50` and equals 50 exactly when `t ≥ 200`. -/
theorem C8_setupSpinner_width (R : Runtime) (t : Int) (statusSet : List String)
    (h0 : 0 ≤ t) (h1 : t ≤ maxInt) :
    (setupSpinner R t statusSet).1 =
      NewSimpleWithTheme (min 50 (t / 4)) LiteTheme ColorCompleted ColorTodo
    ∧ (setupSpinner R t statusSet).1.width = min 50 (t / 4)
    ∧ (setupSpinner R t statusSet).1.width ≤ maxBarWidth
    ∧ ((setupSpinner R t statusSet).1.width = 50 ↔ 200 ≤ t) := by
  have hw : (setupSpinner R t statusSet).1.width = min 50 (t / 4) := by
    show (if intOfF64 R (f64Mul f64Quarter (f64OfInt t)) > maxBarWidth then maxBarWidth
      else intOfF64 R (f64Mul f64Quarter (f64OfInt t))) = min 50 (t / 4)
    unfold maxBarWidth
    rcases quarter_conv R t h0 h1 with h | ⟨h2, h3⟩
    · rw [h]
      split_ifs <;> omega
    · rw [if_pos (by omega)]
      omega
  refine ⟨?_, hw, ?_, ?_⟩
  · show NewSimpleWithTheme _ LiteTheme ColorCompleted ColorTodo = _
    have : (setupSpinner R t statusSet).1.width =
        (if intOfF64 R (f64Mul f64Quarter (f64OfInt t)) > maxBarWidth then maxBarWidth
          else intOfF64 R (f64Mul f64Quarter (f64OfInt t))) := rfl
    rw [← this, hw]
  · rw [hw]; unfold maxBarWidth; omega
  · rw [hw]; omega

/-- C8, witness: a terminal of 120 columns gives a bar of 30, one of 200 columns a
bar of 50. -/
theorem C8_setupSpinner_width_witness :
    (setupSpinner amd64 120 []).1 = NewSimpleWithTheme 30 LiteTheme ColorCompleted ColorTodo
    ∧ (setupSpinner amd64 200 []).1.width = 50 :=
  ⟨(C8_setupSpinner_width amd64 120 [] (by decide) (by decide)).1,
   (C8_setupSpinner_width amd64 200 [] (by decide) (by decide)).2.1⟩

/-- C9 (as amended): each of the six named themes selects a glyph set of exactly 4
entries; for every width `0 ≤ w` and every ratio whose clamped float64 product with
`float64(w)` has an integer part `c` that `int` represents (the repeated glyph
texts fitting into a string), `ProgressFormat` completes without a panic, with
both repeat counts non-negative, and returns a nil error; and whatever
`ProgressFormat` returns, its error is nil, so that `formatFn` of
`downloadProgress` never writes its "Error:" text. -/
theorem C9_progressFormat_no_fault (R : Runtime) (w : Int) (theme : SimpleTheme)
    (dc tc : Color) (r : Float64) (c : Int) (hw0 : 0 ≤ w) (hw1 : w ≤ maxInt)
    (ht : theme ∈ namedThemes)
    (hc : f64Trunc (f64Mul (completedRatio r) (f64OfInt w)) = some c)
    (hl1 : 3 * c ≤ maxInt) (hl2 : 3 * max 0 (w - c) ≤ maxInt) :
    (NewSimpleWithTheme w theme dc tc).charSet.length = 4
    ∧ (∃ str, ProgressFormat R (NewSimpleWithTheme w theme dc tc) r = .ok (str, none))
    ∧ 0 ≤ completedCount R (NewSimpleWithTheme w theme dc tc) r
    ∧ 0 ≤ todoCount R (NewSimpleWithTheme w theme dc tc) r
    ∧ (∀ (s : Simple) (q : Float64) (str : String) (err : Option String),
        ProgressFormat R s q = .ok (str, err) → err = none)
    ∧ (∀ (s : Simple) (spinner : Spinner) (stage : String) (q : Float64) (text : String)
        (sp : Spinner), downloadFormatFn R s spinner stage q = .ok (text, sp) →
        ∃ progStr, ProgressFormat R s q = .ok (progStr, none)
          ∧ text = statusTitle (R.sprint Magenta spinner.Next.1)
              (R.sprint downloadColor "Download progress")
            ++ progStr ++ " " ++ R.sprint auxInfoFormat ("[" ++ stage ++ "]")) := by
  obtain ⟨g0, g1, g2, g3, hl, _⟩ := lookup_named theme ht
  obtain ⟨hcc, hc0, _, htc⟩ :=
    counts_of_trunc R (NewSimpleWithTheme w theme dc tc) r c hw0 hw1 hc
  refine ⟨?_, ⟨_, ProgressFormat_named R w theme dc tc r c hw0 hw1 ht hc hl1 hl2⟩, ?_, ?_,
    fun s q str err h => ProgressFormat_err R s q str err h,
    fun s spinner stage q text sp h => downloadFormatFn_text R s spinner stage q text sp h⟩
  · show (lookup theme).length = 4
    rw [hl]; rfl
  · rw [hcc]; exact hc0
  · rw [htc]; exact le_max_left _ _

/-- C9, witness: width 50, LiteTheme, ratio 1.5 on amd64. -/
theorem C9_progressFormat_no_fault_witness :
    (NewSimpleWithTheme 50 LiteTheme ColorCompleted ColorTodo).charSet.length = 4
    ∧ (∃ str, ProgressFormat amd64 (NewSimpleWithTheme 50 LiteTheme ColorCompleted ColorTodo)
        (.fin false 3 (-1)) = .ok (str, none))
    ∧ 0 ≤ completedCount amd64 (NewSimpleWithTheme 50 LiteTheme ColorCompleted ColorTodo)
        (.fin false 3 (-1))
    ∧ 0 ≤ todoCount amd64 (NewSimpleWithTheme 50 LiteTheme ColorCompleted ColorTodo)
        (.fin false 3 (-1)) :=
  have h := C9_progressFormat_no_fault amd64 50 LiteTheme ColorCompleted ColorTodo
    (.fin false 3 (-1)) 75 (by decide) (by decide) (by decide) (by decide) (by decide)
    (by decide)
  ⟨h.1, h.2.1, h.2.2.1, h.2.2.2.1⟩

/-- C9, counterexample: width 50 and LiteTheme.  For the ratio NaN and for the
ratio 2^60 the conversion `int(...)` yields `-2^63` on amd64, a negative repeat
count, and `strings.Repeat` panics; on arm64 the ratio 2^60 saturates the count and
`strings.Repeat` panics on the length of its result. -/
theorem C9_counterexample :
    ProgressFormat amd64 (NewSimpleWithTheme 50 LiteTheme ColorCompleted ColorTodo) .nan
        = .error .negativeRepeatCount
    ∧ completedCount amd64 (NewSimpleWithTheme 50 LiteTheme ColorCompleted ColorTodo) .nan
        = -(2 ^ 63)
    ∧ Float64.valid (.fin false 1 60) = true
    ∧ ProgressFormat amd64 (NewSimpleWithTheme 50 LiteTheme ColorCompleted ColorTodo)
        (.fin false 1 60) = .error .negativeRepeatCount
    ∧ ProgressFormat arm64 (NewSimpleWithTheme 50 LiteTheme ColorCompleted ColorTodo)
        (.fin false 1 60) = .error .repeatOverflow := by
  refine ⟨by decide, by decide, by decide, by decide, by decide⟩

/-- C10 (as amended): the running display of `scanningImage` is given the counter
values 0, 1, …, 549 in strictly increasing order, one per call of `formatFn` (550
calls); the completion text is built from the loop variable after the loop and
shows "[550 vulnerabilities]", one more than the last value displayed; every text
written to the line is the title template followed by the count, without a bar. -/
theorem C10_scanningImage_display (R : Runtime) (t : Int) (statusSet : List String) :
    (scanningImageTask R t statusSet).line =
      (List.range 550).map (runningLine R statusSet) ++
        [statusTitle (R.sprint Green "✔") (R.sprint scanColor "Scanned image")
          ++ R.sprint auxInfoFormat "[550 vulnerabilities]"]
    ∧ ((List.range 550).map (runningLine R statusSet)).length = 550
    ∧ (scanningImageTask R t statusSet).v = 550 := by
  obtain ⟨h1, h2⟩ := scanningImageTask_spec R t statusSet
  refine ⟨?_, by simp, h2⟩
  rw [h1]
  rfl

/-- C10, counterexample: on a terminal of 80 columns the last text written to the
line shows the count 550, which is not the text with the count 549; the last
running text shows 549. -/
theorem C10_counterexample :
    (scanningImageTask amd64 80 ["a"]).line.getLast? =
      some (statusTitle (tagSprint Green "✔") (tagSprint scanColor "Scanned image")
        ++ tagSprint auxInfoFormat "[550 vulnerabilities]")
    ∧ (statusTitle (tagSprint Green "✔") (tagSprint scanColor "Scanned image")
        ++ tagSprint auxInfoFormat "[550 vulnerabilities]")
      ≠ (statusTitle (tagSprint Green "✔") (tagSprint scanColor "Scanned image")
        ++ tagSprint auxInfoFormat "[549 vulnerabilities]")
    ∧ (scanningImageTask amd64 80 ["a"]).line[549]? = some (runningLine amd64 ["a"] 549) := by
  obtain ⟨h1, _⟩ := scanningImageTask_spec amd64 80 ["a"]
  rw [h1]
  refine ⟨?_, by decide, ?_⟩
  · rw [List.getLast?_append]
    rfl
  · rw [List.getElem?_append_left (by simp)]
    simp

end Asyncui
